import Mathlib

/-!
# A shallow embedding of the WiredTiger sorted-index adapter

This file models `src/mongo/db/storage/wiredtiger/wiredtiger_index.cpp`:
the layer that puts database-level index semantics (standard and unique
flavors) on top of an ordered key/value engine.

Modelling conventions:

* A structured BSON index key (after field-name stripping) is `BKey`:
  `val` is its logical position in the index key order (the external
  `KeyString` codec is order-preserving, so two keys compare equal with
  `woCompare` exactly when their encoded bytes agree; we collapse the byte
  string to this logical value), `tb` is the key's type-bits word
  (`0` = `TypeBits::isAllZeros()`), and `size` is the BSON `objsize()`
  checked by `checkKeySize`.
* The order-preserving encoding with a discriminator is modelled as
  `3 * val + d` with `d = 0` for `kExclusiveBefore`, `1` for `kInclusive`,
  `2` for `kExclusiveAfter`.  This satisfies the codec contract: encodings
  of distinct keys are ordered like the keys, and
  `encode(K, Before) < encode(K, Inclusive) < encode(K, After)` with no
  legal (inclusive) key equal to an exclusive encoding.
* A full engine key is `EK := Nat × Nat` ordered lexicographically: the
  first component is the discriminated key encoding, the second the
  appended record id (`loc + 1`) for standard-index entries and `0` when
  no record id is appended, mirroring that `encode(K) ∥ rid` sorts
  strictly after the bare prefix `encode(K)`.
* Record ids are `Nat`.  A unique-index engine value is a list of
  `UEntry`: `tb = some t` means the type-bits `t` were serialized after
  the record id, `tb = none` means they were omitted (the `BufReader`
  decodes an exhausted buffer as all-zero type bits, which is how the
  single-entry all-zeros omission round-trips).
* The WT table is a sorted association list; `insert` fails with
  `WT_DUPLICATE_KEY` when the engine key is already present, `update`
  replaces the value of a present key, `remove` deletes it (`WT_NOTFOUND`
  when absent is represented by leaving the table unchanged where the
  source ignores it).
-/

/-- Outcome of an adapter operation (`Status` in the source; only the codes
this translation unit can produce are modelled). -/
inductive Status where
  | ok
  | duplicateKey
  | keyTooLong
deriving DecidableEq

/-- A structured index key after `stripFieldNames`: logical order position,
type bits, and BSON `objsize()` in bytes. -/
structure BKey where
  val : Nat
  tb : Nat
  size : Nat
deriving DecidableEq

/-- One `(record id, type bits)` tuple inside a unique-index engine value.
`tb = none` models the serialized form that omits the type-bits trailer. -/
structure UEntry where
  loc : Nat
  tb : Option Nat
deriving DecidableEq

/-- Reading type bits off a value buffer: an omitted trailer decodes as the
all-zeros type bits (`KeyString::TypeBits::fromBuffer` on an exhausted
reader). -/
def decodeTb (t : Option Nat) : Nat := t.getD 0

/-- `KeyString(key, ordering)` with the default `kInclusive` discriminator:
the engine-key prefix of both flavors. -/
def encInc (k : BKey) : Nat := 3 * k.val + 1

/-- The three `KeyString` discriminators. -/
inductive Disc where
  | exclusiveBefore
  | inclusive
  | exclusiveAfter
deriving DecidableEq

def discVal : Disc → Nat
  | .exclusiveBefore => 0
  | .inclusive => 1
  | .exclusiveAfter => 2

/-- A full engine key: discriminated key encoding plus the (shifted)
trailing record id; `0` in the second slot when no record id follows. -/
abbrev EK := Nat × Nat

/-- `KeyString(key, ordering, discriminator)` used for seeks and end
positions (no trailing record id). -/
def encodeQuery (v : Nat) (d : Disc) : EK := (3 * v + discVal d, 0)

/-- `KeyString(key, ordering, loc)`: the standard-index engine key, the
key encoding with the record id appended (a strict bytewise extension of
the bare prefix, hence the `loc + 1`). -/
def stdEK (k : BKey) (loc : Nat) : EK := (encInc k, loc + 1)

/-- Bytewise (lexicographic) comparison of engine keys. -/
def ekLt (a b : EK) : Bool := a.1 < b.1 || (a.1 == b.1 && a.2 < b.2)

/-- Propositional version of `ekLt`. -/
def ekLtP (a b : EK) : Prop := a.1 < b.1 ∨ (a.1 = b.1 ∧ a.2 < b.2)

instance (a b : EK) : Decidable (ekLtP a b) := by
  unfold ekLtP; infer_instance

/-- `TempKeyMaxSize` from the source (1024). -/
def TempKeyMaxSize : Nat := 1024

/-- `checkKeySize`: keys whose `objsize()` is `>= TempKeyMaxSize` are
rejected with `KeyTooLong`. -/
def checkKeySize (k : BKey) : Status :=
  if k.size ≥ TempKeyMaxSize then Status.keyTooLong else Status.ok

/-! ## The engine table for the unique flavor

Unique-index rows are keyed by the bare key encoding (second engine-key
component always `0`), so the table is kept as a list sorted by the `Nat`
encoding. -/

/-- Unique-index engine table: rows `(encInc key, duplicate list)` in
ascending engine-key order. -/
abbrev UTable := List (Nat × List UEntry)

def lookupU : UTable → Nat → Option (List UEntry)
  | [], _ => none
  | r :: rs, k => if r.1 = k then some r.2 else lookupU rs k

/-- Insert a fresh row at its sorted position (the engine keeps rows in
key order). -/
def insertRowU (k : Nat) (v : List UEntry) : UTable → UTable
  | [] => [(k, v)]
  | r :: rs => if k < r.1 then (k, v) :: r :: rs else r :: insertRowU k v rs

/-- `WT_CURSOR::insert`: fails with `WT_DUPLICATE_KEY` (modelled as `none`)
when the key is already present. -/
def wtInsertU (t : UTable) (k : Nat) (v : List UEntry) : Option UTable :=
  match lookupU t k with
  | some _ => none
  | none => some (insertRowU k v t)

/-- `WT_CURSOR::update`: replace the value stored at a present key. -/
def wtUpdateU : UTable → Nat → List UEntry → UTable
  | [], _, _ => []
  | r :: rs, k, v => if r.1 = k then (k, v) :: rs else r :: wtUpdateU rs k v

/-- `WT_CURSOR::remove`: drop the row at the key; `WT_NOTFOUND` leaves the
table unchanged. -/
def wtRemoveU : UTable → Nat → UTable
  | [], _ => []
  | r :: rs, k => if r.1 = k then rs else r :: wtRemoveU rs k

/-! ## The engine table for the standard flavor -/

/-- Standard-index engine table: rows `(key-with-loc, type bits)`; an
all-zero type-bits buffer is stored empty, modelled by the `Nat` `0`. -/
abbrev STable := List (EK × Nat)

def lookupS : STable → EK → Option Nat
  | [], _ => none
  | r :: rs, k => if r.1 = k then some r.2 else lookupS rs k

def insertRowS (k : EK) (v : Nat) : STable → STable
  | [] => [(k, v)]
  | r :: rs => if ekLt k r.1 then (k, v) :: r :: rs else r :: insertRowS k v rs

def wtInsertS (t : STable) (k : EK) (v : Nat) : Option STable :=
  match lookupS t k with
  | some _ => none
  | none => some (insertRowS k v t)

def wtRemoveS : STable → EK → STable
  | [], _ => []
  | r :: rs, k => if r.1 = k then rs else r :: wtRemoveS rs k

/-! ## `WiredTigerIndexUnique::_insert` -/

/-- The freshly built engine value for a first insert at a key: the record
id followed by the key's type bits, omitted when all-zero
(`KeyString value(loc); if (!data.getTypeBits().isAllZeros())
value.appendTypeBits(...)`). -/
def mkFreshUVal (loc tb : Nat) : List UEntry :=
  [{ loc := loc, tb := if tb = 0 then none else some tb }]

/-- The duplicate-handling loop of `WiredTigerIndexUnique::_insert`: walk
the stored duplicate list, returning `none` ("already in index", the
caller returns `Ok` without touching the table) when `loc` is found, and
otherwise the rebuilt value with `(loc, tb)` spliced in before the first
stored record id greater than `loc` (or appended at the end).  Every
copied tuple gets its type bits re-appended explicitly — the all-zeros
omission never applies to multi-entry values. -/
def buildNewUVal (loc tb : Nat) (insertedLoc : Bool) :
    List UEntry → Option (List UEntry)
  | [] => some (if insertedLoc then [] else [{ loc := loc, tb := some tb }])
  | e :: rest =>
    if loc = e.loc then none
    else if !insertedLoc && loc < e.loc then
      (buildNewUVal loc tb true rest).map
        (fun tail => { loc := loc, tb := some tb } ::
          { loc := e.loc, tb := some (decodeTb e.tb) } :: tail)
    else
      (buildNewUVal loc tb insertedLoc rest).map
        (fun tail => { loc := e.loc, tb := some (decodeTb e.tb) } :: tail)

/-- `WiredTigerIndexUnique::_insert` (after the key-size check): try a
plain engine insert; on `WT_DUPLICATE_KEY` re-read the row, return `Ok` if
`loc` is already present, return `DuplicateKey` (table untouched) when
duplicates are forbidden, and otherwise update the row with the spliced
duplicate list. -/
def uniqueInsertRaw (t : UTable) (k : BKey) (loc : Nat) (dupsAllowed : Bool) :
    Status × UTable :=
  let ek := encInc k
  match wtInsertU t ek (mkFreshUVal loc k.tb) with
  | some t1 => (Status.ok, t1)
  | none =>
    match lookupU t ek with
    | none => (Status.ok, t) -- unreachable: WT_DUPLICATE_KEY means the key is present
    | some old =>
      match buildNewUVal loc k.tb false old with
      | none => (Status.ok, t) -- loc already in the index
      | some newVal =>
        if !dupsAllowed then (Status.duplicateKey, t)
        else (Status.ok, wtUpdateU t ek newVal)

/-- `WiredTigerIndex::insert` for the unique flavor: the `checkKeySize`
gate followed by `_insert`. -/
def uniqueIndexInsert (t : UTable) (k : BKey) (loc : Nat) (dupsAllowed : Bool) :
    Status × UTable :=
  if checkKeySize k ≠ Status.ok then (Status.keyTooLong, t)
  else uniqueInsertRaw t k loc dupsAllowed

/-! ## `WiredTigerIndexStandard::_insert` -/

/-- `WiredTigerIndexStandard::_insert` (after the key-size check): insert
the `(key ∥ loc, type bits)` row; a `WT_DUPLICATE_KEY` answer means the
identical row already existed and is mapped to `Ok`. -/
def stdInsertRaw (t : STable) (k : BKey) (loc : Nat) : Status × STable :=
  match wtInsertS t (stdEK k loc) k.tb with
  | some t1 => (Status.ok, t1)
  | none => (Status.ok, t)

/-- `WiredTigerIndex::insert` for the standard flavor. -/
def stdIndexInsert (t : STable) (k : BKey) (loc : Nat) : Status × STable :=
  if checkKeySize k ≠ Status.ok then (Status.keyTooLong, t)
  else stdInsertRaw t k loc

/-! ## `WiredTigerIndexUnique::_unindex` -/

/-- The scan loop of `_unindex` in the `dupsAllowed` case.  `none` means
the sole record matched `loc` and the whole row is removed; otherwise the
result carries `foundLoc` and the surviving `(loc, decoded type bits)`
pairs in stored order. -/
def unindexWalk (loc : Nat) (foundLoc : Bool) (records : List (Nat × Nat)) :
    List UEntry → Option (Bool × List (Nat × Nat))
  | [] => some (foundLoc, records)
  | e :: rest =>
    if loc = e.loc then
      if records = [] ∧ rest = [] then none
      else unindexWalk loc true records rest
    else unindexWalk loc foundLoc (records ++ [(e.loc, decodeTb e.tb)]) rest

/-- Re-serialize surviving records: the type bits are omitted exactly when
the list has a single record whose type bits are all-zero. -/
def rebuildVal (records : List (Nat × Nat)) : List UEntry :=
  records.map (fun r =>
    { loc := r.1, tb := if r.2 = 0 ∧ records.length = 1 then none else some r.2 })

/-- `WiredTigerIndexUnique::_unindex`: a plain engine remove when
duplicates are forbidden; otherwise the search / scan / remove-or-update
protocol on the duplicate list. -/
def uniqueUnindex (t : UTable) (k : BKey) (loc : Nat) (dupsAllowed : Bool) :
    UTable :=
  let ek := encInc k
  if !dupsAllowed then wtRemoveU t ek
  else
    match lookupU t ek with
    | none => t
    | some old =>
      match unindexWalk loc false [] old with
      | none => wtRemoveU t ek
      | some (found, records) =>
        if !found then t
        else wtUpdateU t ek (rebuildVal records)

/-- `WiredTigerIndexStandard::_unindex`: remove the composite row,
ignoring `WT_NOTFOUND`. -/
def stdUnindex (t : STable) (k : BKey) (loc : Nat) : STable :=
  wtRemoveS t (stdEK k loc)

/-- The record ids stored in a unique-index engine value, in stored
order. -/
def locsOf (v : List UEntry) : List Nat := v.map UEntry.loc

/-- Reference ordered insertion used to state the duplicate-list ordering
invariant: place `l` immediately before the first strictly greater
element. -/
def sortedInsertLoc (l : Nat) : List Nat → List Nat
  | [] => [l]
  | x :: xs => if l < x then l :: x :: xs else x :: sortedInsertLoc l xs

/-! ## Bulk builders

Bulk builders write through an append-only bulk cursor; the emitted rows
are modelled as the list of `(engine key, value)` pairs in emission
order. -/

/-- `WiredTigerIndex::StandardBulkBuilder::addKey`: size check, then append
the `(key ∥ loc, type bits)` row to the bulk cursor. -/
def stdBulkAddKey (rows : STable) (k : BKey) (loc : Nat) : Status × STable :=
  if checkKeySize k ≠ Status.ok then (Status.keyTooLong, rows)
  else (Status.ok, rows ++ [(stdEK k loc, k.tb)])

/-- Mutable state of `WiredTigerIndex::UniqueBulkBuilder`: the pending key
(`none` models the initial empty `_key`), the gathered
`(loc, type bits)` records for it, and the rows already emitted through
the bulk cursor. -/
structure UniqueBulkState where
  key : Option BKey
  records : List (Nat × Nat)
  rows : List (Nat × List UEntry)
deriving DecidableEq

/-- The empty builder. -/
def emptyBulkState : UniqueBulkState := { key := none, records := [], rows := [] }

/-- `UniqueBulkBuilder::doInsert` serializes `_records` with the same
omission rule as `_unindex`: type bits are dropped exactly for a
single-record value with all-zero type bits. -/
def bulkVal (records : List (Nat × Nat)) : List UEntry := rebuildVal records

/-- `UniqueBulkBuilder::addKey`: size check; on a key equal to the pending
one either fail with `DuplicateKey` (builder untouched) or append the
record; on a strictly greater key first flush the pending records via
`doInsert`.  (The source `invariant(cmp > 0)` aborts on decreasing keys;
the theorems below only instantiate this on non-decreasing feeds.) -/
def uniqueBulkAddKey (dupsAllowed : Bool) (st : UniqueBulkState) (k : BKey)
    (loc : Nat) : Status × UniqueBulkState :=
  if checkKeySize k ≠ Status.ok then (Status.keyTooLong, st)
  else
    match st.key with
    | none =>
      (Status.ok, { key := some k, records := [(loc, k.tb)], rows := st.rows })
    | some prev =>
      if k.val = prev.val then
        if !dupsAllowed then (Status.duplicateKey, st)
        else (Status.ok,
          { st with key := some k, records := st.records ++ [(loc, k.tb)] })
      else
        (Status.ok,
          { key := some k
            records := [(loc, k.tb)]
            rows := st.rows ++ [(encInc prev, bulkVal st.records)] })

/-- `UniqueBulkBuilder::commit`: flush the pending records if any, and
return the rows the bulk cursor received.  (`_records` nonempty implies
`_key` was set.) -/
def uniqueBulkCommit (st : UniqueBulkState) : List (Nat × List UEntry) :=
  match st.key, st.records with
  | some k, r :: rs => st.rows ++ [(encInc k, bulkVal (r :: rs))]
  | _, _ => st.rows

/-- Feed a list of `(key, loc)` pairs to the unique bulk builder. -/
def bulkAddAll (dupsAllowed : Bool) (st : UniqueBulkState) :
    List (BKey × Nat) → UniqueBulkState
  | [] => st
  | (k, l) :: rest => bulkAddAll dupsAllowed (uniqueBulkAddKey dupsAllowed st k l).2 rest

/-- Reference grouping of a non-decreasing `(key, loc)` feed, seeded with a
pending group: equal keys extend the current group, a new key closes it. -/
def groupSeed (p : BKey) (recs : List (Nat × Nat)) :
    List (BKey × Nat) → List (BKey × List (Nat × Nat))
  | [] => [(p, recs)]
  | (k, l) :: rest =>
    if k.val = p.val then groupSeed k (recs ++ [(l, k.tb)]) rest
    else (p, recs) :: groupSeed k [(l, k.tb)] rest

/-- Reference grouping of a whole feed. -/
def groupInputs : List (BKey × Nat) → List (BKey × List (Nat × Nat))
  | [] => []
  | (k, l) :: rest => groupSeed k [(l, k.tb)] rest

/-- The row a closed group contributes to the table. -/
def groupRow (g : BKey × List (Nat × Nat)) : Nat × List UEntry :=
  (encInc g.1, bulkVal g.2)

/-! ## The cursor

`WiredTigerIndexCursorBase` and its two specializations.  The flavor
difference lives entirely in `updateLocAndTypeBits`, which reads the
current entry's record id and type bits; we therefore run the cursor over
a list of `Row`s extracted from a table:

* standard: one row per engine row, `loc` decoded off the end of the key
  (`KeyString::decodeRecordIdAtEnd`), type bits from the value;
* unique: one row per engine row, `loc` and type bits decoded from the
  front of the value (`KeyString::decodeRecordId`), and `multi` records
  whether more than one record follows — the case in which the unique
  cursor's `updateLocAndTypeBits` hits `fassertFailed(28608)`.
-/

/-- One engine row as seen by a cursor. -/
structure Row where
  ek : EK
  loc : Nat
  tb : Nat
  multi : Bool
deriving DecidableEq

/-- Rows of a standard table. -/
def stdRows (t : STable) : List Row :=
  t.map (fun r => { ek := r.1, loc := r.1.2 - 1, tb := r.2, multi := false })

/-- Rows of a unique table (an empty value never occurs on disk; it is
mapped to a dummy row). -/
def uniqueRows (t : UTable) : List Row :=
  t.map (fun r =>
    match r.2 with
    | [] => { ek := (r.1, 0), loc := 0, tb := 0, multi := false }
    | e :: rest =>
      { ek := (r.1, 0), loc := e.loc, tb := decodeTb e.tb,
        multi := !rest.isEmpty })

/-- The cached cursor state of `WiredTigerIndexCursorBase`.  `idx` is the
engine cursor's position in `rows` (meaningful while `cursorAtEof` is
false); `fatalDup` records that the unique cursor's multiple-records
fassert (28608) fired. -/
structure Cursor where
  forward : Bool
  rows : List Row
  idx : Nat
  cursorAtEof : Bool
  key : EK
  loc : Nat
  typeBits : Nat
  eof : Bool
  lastMoveWasRestore : Bool
  endPosition : Option EK
  fatalDup : Bool
deriving DecidableEq

/-- A freshly constructed cursor. -/
def mkCursor (forward : Bool) (rows : List Row) : Cursor :=
  { forward := forward, rows := rows, idx := 0, cursorAtEof := false,
    key := (0, 0), loc := 0, typeBits := 0, eof := false,
    lastMoveWasRestore := false, endPosition := none, fatalDup := false }

/-- `WT_CURSOR::search_near` on the sorted row list: the returned index
and the sign of `row.ek - query` (an exact match reports `0`; otherwise
this engine model lands on the greatest smaller row when one exists, else
on the least greater row). -/
def searchNear (rows : List Row) (q : EK) : Option (Nat × Int) :=
  let j := rows.findIdx (fun r => !ekLt r.ek q)
  if h : j < rows.length then
    if (rows.get ⟨j, h⟩).ek = q then some (j, 0)
    else if j = 0 then some (j, 1)
    else some (j - 1, -1)
  else
    if rows.length = 0 then none
    else some (rows.length - 1, -1)

/-- `advanceWTCursor`: step the engine cursor one row in the travel
direction; `WT_NOTFOUND` sets `_cursorAtEof`. -/
def advanceWTCursor (c : Cursor) : Cursor :=
  if c.forward then
    if c.idx + 1 < c.rows.length then
      { c with idx := c.idx + 1, cursorAtEof := false }
    else { c with cursorAtEof := true }
  else
    if c.idx = 0 then { c with cursorAtEof := true }
    else { c with idx := c.idx - 1, cursorAtEof := false }

/-- `seekWTCursor`: position via `search_near`, stepping once when the
landing row is on the wrong side of the query for the travel direction;
returns `true` on an exact match. -/
def seekWTCursor (c : Cursor) (query : EK) : Cursor × Bool :=
  match searchNear c.rows query with
  | none => ({ c with cursorAtEof := true }, false)
  | some (i, cmp) =>
    let c1 := { c with idx := i, cursorAtEof := false }
    if cmp = 0 then (c1, true)
    else if (if c.forward then cmp < 0 else cmp > 0) then
      (advanceWTCursor c1, false)
    else (c1, false)

/-- `atOrPastEndPointAfterSeeking`, evaluated on the cached `_key`. -/
def atOrPastEndPointAfterSeeking (c : Cursor) : Bool :=
  if c.eof then true
  else
    match c.endPosition with
    | none => false
    | some ep => if c.forward then ekLt ep c.key else ekLt c.key ep

/-- `updatePosition` followed by the flavor's `updateLocAndTypeBits`:
refresh the cached `_key/_loc/_typeBits` from the engine cursor, going to
`_eof` at engine end or past the end position.  A multi-record unique row
sets `fatalDup` (the source fasserts there). -/
def updatePosition (c : Cursor) : Cursor :=
  let c0 := { c with lastMoveWasRestore := false }
  if c0.cursorAtEof then { c0 with eof := true, loc := 0 }
  else
    match c0.rows.get? c0.idx with
    | none => { c0 with eof := true, loc := 0 } -- unreachable: the engine cursor is positioned
    | some r =>
      let c1 := { c0 with eof := false, key := r.ek }
      if atOrPastEndPointAfterSeeking c1 then { c1 with eof := true }
      else
        { c1 with
          loc := r.loc
          typeBits := r.tb
          fatalDup := c1.fatalDup || r.multi }

/-- A decoded `(structured key, record id)` entry as returned to the
caller (`IndexKeyEntry`); the structured key is reconstructed from the
cached key bytes and type bits. -/
structure Entry where
  keyVal : Nat
  keyTb : Nat
  loc : Nat
deriving DecidableEq

/-- `curr`: decode the cached position, `none` at eof. -/
def curr (c : Cursor) : Option Entry :=
  if c.eof then none
  else some { keyVal := c.key.1 / 3, keyTb := c.typeBits, loc := c.loc }

/-- `next`: a no-op at eof; otherwise advance unless the last move was a
restore, refresh the position, and decode it. -/
def cursorNext (c : Cursor) : Cursor × Option Entry :=
  if c.eof then (c, none)
  else
    let c1 := if c.lastMoveWasRestore then c else advanceWTCursor c
    let c2 := updatePosition c1
    (c2, curr c2)

/-- `seek(key, inclusive)`: discriminator
`_forward == inclusive ? kExclusiveBefore : kExclusiveAfter`, then
`seekWTCursor` and `updatePosition`. -/
def cursorSeek (c : Cursor) (k : BKey) (inclusive : Bool) :
    Cursor × Option Entry :=
  let disc := if c.forward = inclusive then Disc.exclusiveBefore
    else Disc.exclusiveAfter
  let q := encodeQuery k.val disc
  let c1 := (seekWTCursor c q).1
  let c2 := updatePosition c1
  (c2, curr c2)

/-- `setEndPosition` with a nonempty key: discriminator
`_forward == inclusive ? kExclusiveAfter : kExclusiveBefore` (an empty
key, which clears the bound, is not modelled). -/
def setEndPosition (c : Cursor) (k : BKey) (inclusive : Bool) : Cursor :=
  let disc := if c.forward = inclusive then Disc.exclusiveAfter
    else Disc.exclusiveBefore
  { c with endPosition := some (encodeQuery k.val disc) }

/-- `savePositioned`: the engine cursor is reset but the cached position
survives; the cached state is the whole model state, so this is the
identity. -/
def savePositioned (c : Cursor) : Cursor := c

/-- `saveUnpositioned`. -/
def saveUnpositioned (c : Cursor) : Cursor := { c with eof := true }

/-- `WiredTigerIndexCursorBase::restore` against the (possibly changed)
table snapshot of the new transaction: reacquire the engine cursor, and
seek back to the cached `_key` unless at eof; a non-exact landing sets
`_lastMoveWasRestore`. -/
def restoreBase (c : Cursor) (newRows : List Row) : Cursor :=
  let c0 := { c with rows := newRows }
  if c0.eof then c0
  else
    let s := seekWTCursor c0 c0.key
    { s.1 with lastMoveWasRestore := !s.2 }

/-- `WiredTigerIndexUniqueCursor::restore`: after the base restore, when
the seek landed exactly on the saved key, compare the first record id
stored in the row's value with the cached `_loc` and step once when the
stored id is on the already-visited side. -/
def uniqueRestore (c : Cursor) (newRows : List Row) : Cursor :=
  let c1 := restoreBase c newRows
  if c1.lastMoveWasRestore then c1
  else if c1.eof then c1
  else
    match c1.rows.get? c1.idx with
    | none => c1 -- unreachable: an exact landing means the row exists
    | some r =>
      if r.loc = c1.loc then c1
      else
        let c2 := { c1 with lastMoveWasRestore := true }
        if c1.forward && r.loc < c1.loc then advanceWTCursor c2
        else if !c1.forward && r.loc > c1.loc then advanceWTCursor c2
        else c2

/-- A row holds a legal index key: its first engine-key component carries
the `kInclusive` discriminator (`3 m + 1`). -/
def legalRow (r : Row) : Prop := r.ek.1 % 3 = 1

instance (r : Row) : Decidable (legalRow r) := by
  unfold legalRow; infer_instance

/-- The structured-key value a legal row decodes to. -/
def structValOf (r : Row) : Nat := r.ek.1 / 3

/-- The entry a row decodes to. -/
def entryOf (r : Row) : Entry :=
  { keyVal := structValOf r, keyTb := r.tb, loc := r.loc }

/-! ## Reference descriptions of the duplicate-list rewrite -/

/-- An entry re-serialized with its type bits explicit, as the `_insert`
copy loop does (`appendTypeBits(TypeBits::fromBuffer(&br))`). -/
def explEntry (e : UEntry) : UEntry := { loc := e.loc, tb := some (decodeTb e.tb) }

/-- The value `_insert` writes back on the duplicate path: `(loc, tb)`
spliced in before the first strictly greater stored record id (or
appended), every tuple with explicit type bits. -/
def spliceEntries (loc tb : Nat) : List UEntry → List UEntry
  | [] => [{ loc := loc, tb := some tb }]
  | e :: rest =>
    if loc < e.loc then
      { loc := loc, tb := some tb } :: (e :: rest).map explEntry
    else explEntry e :: spliceEntries loc tb rest

/-- The `(record id, decoded type bits)` pair an entry parses to. -/
def decPair (e : UEntry) : Nat × Nat := (e.loc, decodeTb e.tb)

/-- Well-formedness of an on-disk unique-index value: nonempty, record ids
strictly ascending, a single entry never stores explicit all-zero type
bits, and a multi-entry value stores all type bits explicitly. -/
def valWF (v : List UEntry) : Prop :=
  v ≠ [] ∧ (locsOf v).Pairwise (· < ·) ∧
    (∀ e, v = [e] → e.tb ≠ some 0) ∧
    (2 ≤ v.length → ∀ e ∈ v, e.tb ≠ none)

/-- Number of rows of a standard table carrying a given engine key. -/
def countKeyS (t : STable) (ek : EK) : Nat :=
  (t.filter (fun r => decide (r.1 = ek))).length

/-- A sequence of `insert (K, L_i, dups_allowed := true)` calls. -/
def insertAll (t : UTable) (k : BKey) : List Nat → UTable
  | [] => t
  | l :: ls => insertAll (uniqueIndexInsert t k l true).2 k ls

/-! ## Lemmas about the engine tables -/

theorem ekLt_eq_true_iff (a b : EK) : ekLt a b = true ↔ ekLtP a b := by
  simp [ekLt, ekLtP]

theorem lookupU_insertRowU_self (t : UTable) (k : Nat) (v : List UEntry)
    (h : lookupU t k = none) : lookupU (insertRowU k v t) k = some v := by
  induction t with
  | nil => simp [insertRowU, lookupU]
  | cons r rs ih =>
    simp only [lookupU] at h
    by_cases hr : r.1 = k
    · simp [hr] at h
    · simp only [insertRowU]
      by_cases hlt : k < r.1
      · simp [hlt, lookupU]
      · simpa [hlt, lookupU, hr] using ih (by simpa [hr] using h)

theorem lookupU_wtUpdateU_self (t : UTable) (k : Nat) (v w : List UEntry)
    (h : lookupU t k = some w) : lookupU (wtUpdateU t k v) k = some v := by
  induction t with
  | nil => simp [lookupU] at h
  | cons r rs ih =>
    simp only [lookupU] at h
    by_cases hr : r.1 = k
    · simp [wtUpdateU, hr, lookupU]
    · simp only [wtUpdateU, hr, if_false, lookupU]
      exact ih (by simpa [hr] using h)

theorem wtUpdateU_eq_of_lookup (t : UTable) (k : Nat) (v : List UEntry)
    (h : lookupU t k = some v) : wtUpdateU t k v = t := by
  induction t with
  | nil => simp [lookupU] at h
  | cons r rs ih =>
    simp only [lookupU] at h
    by_cases hr : r.1 = k
    · simp only [hr, if_true] at h
      simp only [wtUpdateU, hr, if_true]
      cases r with
      | mk a b => simp_all
    · simp only [wtUpdateU, hr, if_false]
      rw [ih (by simpa [hr] using h)]

theorem wtUpdateU_wtUpdateU (t : UTable) (k : Nat) (v w : List UEntry) :
    wtUpdateU (wtUpdateU t k v) k w = wtUpdateU t k w := by
  induction t with
  | nil => simp [wtUpdateU]
  | cons r rs ih =>
    by_cases hr : r.1 = k
    · simp [wtUpdateU, hr]
    · simp [wtUpdateU, hr, ih]

theorem wtRemoveU_insertRowU (t : UTable) (k : Nat) (v : List UEntry)
    (h : lookupU t k = none) : wtRemoveU (insertRowU k v t) k = t := by
  induction t with
  | nil => simp [insertRowU, wtRemoveU]
  | cons r rs ih =>
    simp only [lookupU] at h
    by_cases hr : r.1 = k
    · simp [hr] at h
    · simp only [insertRowU]
      by_cases hlt : k < r.1
      · simp [hlt, wtRemoveU]
      · simpa [hlt, wtRemoveU, hr] using ih (by simpa [hr] using h)

theorem wtRemoveU_eq_of_lookup_none (t : UTable) (k : Nat)
    (h : lookupU t k = none) : wtRemoveU t k = t := by
  induction t with
  | nil => simp [wtRemoveU]
  | cons r rs ih =>
    simp only [lookupU] at h
    by_cases hr : r.1 = k
    · simp [hr] at h
    · simpa [wtRemoveU, hr] using ih (by simpa [hr] using h)

theorem lookupS_insertRowS_self (t : STable) (k : EK) (v : Nat)
    (h : lookupS t k = none) : lookupS (insertRowS k v t) k = some v := by
  induction t with
  | nil => simp [insertRowS, lookupS]
  | cons r rs ih =>
    simp only [lookupS] at h
    by_cases hr : r.1 = k
    · simp [hr] at h
    · simp only [insertRowS]
      by_cases hlt : ekLt k r.1
      · simp [hlt, lookupS]
      · simpa [hlt, lookupS, hr] using ih (by simpa [hr] using h)

theorem wtRemoveS_insertRowS (t : STable) (k : EK) (v : Nat)
    (h : lookupS t k = none) : wtRemoveS (insertRowS k v t) k = t := by
  induction t with
  | nil => simp [insertRowS, wtRemoveS]
  | cons r rs ih =>
    simp only [lookupS] at h
    by_cases hr : r.1 = k
    · simp [hr] at h
    · simp only [insertRowS]
      by_cases hlt : ekLt k r.1
      · simp [hlt, wtRemoveS]
      · simpa [hlt, wtRemoveS, hr] using ih (by simpa [hr] using h)

theorem wtRemoveS_eq_of_lookup_none (t : STable) (k : EK)
    (h : lookupS t k = none) : wtRemoveS t k = t := by
  induction t with
  | nil => simp [wtRemoveS]
  | cons r rs ih =>
    simp only [lookupS] at h
    by_cases hr : r.1 = k
    · simp [hr] at h
    · simpa [wtRemoveS, hr] using ih (by simpa [hr] using h)

/-! ## Lemmas about the `_insert` duplicate-list rewrite -/

theorem buildNewUVal_eq_none_iff (loc tb : Nat) (b : Bool) (v : List UEntry) :
    buildNewUVal loc tb b v = none ↔ loc ∈ locsOf v := by
  induction v generalizing b with
  | nil => simp [buildNewUVal, locsOf]
  | cons e rest ih =>
    by_cases he : loc = e.loc
    · simp [buildNewUVal, he, locsOf]
    · cases b with
      | true => simp [buildNewUVal, he, locsOf, ih]
      | false =>
        by_cases hlt : loc < e.loc
        · simp [buildNewUVal, he, hlt, locsOf, ih]
        · simp [buildNewUVal, he, hlt, locsOf, ih]

theorem buildNewUVal_true_of_not_mem (loc tb : Nat) (v : List UEntry)
    (h : loc ∉ locsOf v) :
    buildNewUVal loc tb true v = some (v.map explEntry) := by
  induction v with
  | nil => simp [buildNewUVal]
  | cons e rest ih =>
    simp only [locsOf, List.map_cons, List.mem_cons] at h
    push_neg at h
    rw [show buildNewUVal loc tb true (e :: rest)
        = (buildNewUVal loc tb true rest).map
          (fun tail => { loc := e.loc, tb := some (decodeTb e.tb) } :: tail) by
      simp [buildNewUVal, h.1]]
    rw [ih (by simpa [locsOf] using h.2)]
    simp [explEntry]

theorem buildNewUVal_false_of_not_mem (loc tb : Nat) (v : List UEntry)
    (h : loc ∉ locsOf v) :
    buildNewUVal loc tb false v = some (spliceEntries loc tb v) := by
  induction v with
  | nil => simp [buildNewUVal, spliceEntries]
  | cons e rest ih =>
    simp only [locsOf, List.map_cons, List.mem_cons] at h
    push_neg at h
    by_cases hlt : loc < e.loc
    · rw [show buildNewUVal loc tb false (e :: rest)
          = (buildNewUVal loc tb true rest).map
            (fun tail => { loc := loc, tb := some tb } ::
              { loc := e.loc, tb := some (decodeTb e.tb) } :: tail) by
        simp [buildNewUVal, h.1, hlt]]
      rw [buildNewUVal_true_of_not_mem loc tb rest (by simpa [locsOf] using h.2)]
      simp [spliceEntries, hlt, explEntry]
    · rw [show buildNewUVal loc tb false (e :: rest)
          = (buildNewUVal loc tb false rest).map
            (fun tail => { loc := e.loc, tb := some (decodeTb e.tb) } :: tail) by
        simp [buildNewUVal, h.1, hlt]]
      rw [ih (by simpa [locsOf] using h.2)]
      simp [spliceEntries, hlt, explEntry]

theorem locsOf_map_explEntry (v : List UEntry) :
    locsOf (v.map explEntry) = locsOf v := by
  simp [locsOf, List.map_map, explEntry, Function.comp]

theorem locsOf_spliceEntries (loc tb : Nat) (v : List UEntry) :
    locsOf (spliceEntries loc tb v) = sortedInsertLoc loc (locsOf v) := by
  induction v with
  | nil => simp [spliceEntries, locsOf, sortedInsertLoc]
  | cons e rest ih =>
    by_cases hlt : loc < e.loc
    · simp only [spliceEntries, hlt, if_true]
      have hm := locsOf_map_explEntry (e :: rest)
      simp only [locsOf, List.map_cons] at hm ⊢
      simp only [sortedInsertLoc, hlt, if_true]
      simp [explEntry]
    · simp only [spliceEntries, hlt, if_false]
      simp only [locsOf, List.map_cons, sortedInsertLoc, hlt, if_false, explEntry]
      simpa [locsOf] using ih

theorem mem_sortedInsertLoc (l m : Nat) (xs : List Nat) :
    m ∈ sortedInsertLoc l xs ↔ m = l ∨ m ∈ xs := by
  induction xs with
  | nil => simp [sortedInsertLoc]
  | cons x rest ih =>
    by_cases hlt : l < x
    · simp [sortedInsertLoc, hlt]
    · simp [sortedInsertLoc, hlt, ih]; tauto

theorem pairwise_sortedInsertLoc (l : Nat) (xs : List Nat)
    (hs : xs.Pairwise (· < ·)) (hm : l ∉ xs) :
    (sortedInsertLoc l xs).Pairwise (· < ·) := by
  induction xs with
  | nil => simp [sortedInsertLoc]
  | cons x rest ih =>
    rcases List.pairwise_cons.mp hs with ⟨hx, hrest⟩
    simp only [List.mem_cons] at hm
    push_neg at hm
    by_cases hlt : l < x
    · simp only [sortedInsertLoc, hlt, if_true]
      refine List.pairwise_cons.mpr ⟨?_, hs⟩
      intro m hmem
      rcases List.mem_cons.mp hmem with rfl | hmem
      · exact hlt
      · exact lt_trans hlt (hx m hmem)
    · have hxl : x < l := lt_of_le_of_ne (le_of_not_lt hlt) (Ne.symm hm.1)
      simp only [sortedInsertLoc, hlt, if_false]
      refine List.pairwise_cons.mpr ⟨?_, ih hrest hm.2⟩
      intro m hmem
      rcases (mem_sortedInsertLoc l m rest).mp hmem with rfl | hmem
      · exact hxl
      · exact hx m hmem

/-! ## Characterization of one unique-index insert -/

theorem uniqueIndexInsert_of_size_ok (t : UTable) (k : BKey) (loc : Nat)
    (d : Bool) (h : k.size < TempKeyMaxSize) :
    uniqueIndexInsert t k loc d = uniqueInsertRaw t k loc d := by
  simp [uniqueIndexInsert, checkKeySize, Nat.not_le.mpr h]

theorem uniqueInsertRaw_absent (t : UTable) (k : BKey) (loc : Nat) (d : Bool)
    (h : lookupU t (encInc k) = none) :
    uniqueInsertRaw t k loc d
      = (Status.ok, insertRowU (encInc k) (mkFreshUVal loc k.tb) t) := by
  simp [uniqueInsertRaw, wtInsertU, h]

theorem uniqueInsertRaw_mem (t : UTable) (k : BKey) (loc : Nat) (d : Bool)
    (v : List UEntry) (h : lookupU t (encInc k) = some v)
    (hm : loc ∈ locsOf v) :
    uniqueInsertRaw t k loc d = (Status.ok, t) := by
  simp [uniqueInsertRaw, wtInsertU, h,
    (buildNewUVal_eq_none_iff loc k.tb false v).mpr hm]

theorem uniqueInsertRaw_splice (t : UTable) (k : BKey) (loc : Nat)
    (v : List UEntry) (h : lookupU t (encInc k) = some v)
    (hm : loc ∉ locsOf v) :
    uniqueInsertRaw t k loc true
      = (Status.ok, wtUpdateU t (encInc k) (spliceEntries loc k.tb v)) := by
  simp [uniqueInsertRaw, wtInsertU, h, buildNewUVal_false_of_not_mem loc k.tb v hm]

theorem uniqueInsertRaw_dup (t : UTable) (k : BKey) (loc : Nat)
    (v : List UEntry) (h : lookupU t (encInc k) = some v)
    (hm : loc ∉ locsOf v) :
    uniqueInsertRaw t k loc false = (Status.duplicateKey, t) := by
  simp [uniqueInsertRaw, wtInsertU, h, buildNewUVal_false_of_not_mem loc k.tb v hm]

/-- **C1.** On a unique index whose row at `K` holds exactly the entry
`(K, L₁)`, `insert(K, L₂, dups_allowed := false)` with `L₂ ≠ L₁` returns
`DuplicateKey` and leaves the whole table — in particular the engine
value at `encode(K)` — unchanged: the status is returned before any
engine update. -/
theorem unique_insert_conflicting_loc_duplicateKey (t : UTable) (k : BKey)
    (l1 l2 : Nat) (tb1 : Option Nat) (hsize : k.size < TempKeyMaxSize)
    (hrow : lookupU t (encInc k) = some [{ loc := l1, tb := tb1 }])
    (hne : l2 ≠ l1) :
    uniqueIndexInsert t k l2 false = (Status.duplicateKey, t) ∧
      lookupU (uniqueIndexInsert t k l2 false).2 (encInc k)
        = some [{ loc := l1, tb := tb1 }] := by
  have hmem : l2 ∉ locsOf [{ loc := l1, tb := tb1 }] := by simp [locsOf, hne]
  have h := uniqueInsertRaw_dup t k l2 _ hrow hmem
  rw [uniqueIndexInsert_of_size_ok t k l2 false hsize, h]
  exact ⟨rfl, hrow⟩

/-- Witness for C1 at a concrete table. -/
theorem unique_insert_conflicting_loc_duplicateKey_witness :
    uniqueIndexInsert [(encInc { val := 1, tb := 0, size := 12 }, [{ loc := 5, tb := none }])]
        { val := 1, tb := 0, size := 12 } 7 false
      = (Status.duplicateKey,
          [(encInc { val := 1, tb := 0, size := 12 }, [{ loc := 5, tb := none }])]) :=
  (unique_insert_conflicting_loc_duplicateKey
    [(encInc { val := 1, tb := 0, size := 12 }, [{ loc := 5, tb := none }])]
    { val := 1, tb := 0, size := 12 } 5 7 none (by decide) (by decide)
    (by decide)).1

/-- **C4 counterexample.** The claim says a key of byte size at most 1024
passes the size check; `checkKeySize` (and hence `insert`) rejects a key
of size exactly 1024, because the source compares with `>=`. -/
theorem keyTooLong_boundary_cex :
    checkKeySize { val := 0, tb := 0, size := 1024 } = Status.keyTooLong ∧
      (1024 : Nat) ≤ 1024 ∧
      uniqueIndexInsert [] { val := 0, tb := 0, size := 1024 } 1 true
        = (Status.keyTooLong, []) ∧
      stdIndexInsert [] { val := 0, tb := 0, size := 1024 } 1
        = (Status.keyTooLong, []) := by
  refine ⟨rfl, le_refl _, ?_, ?_⟩ <;> rfl

/-- **C4 (amended).** `insert` of both flavors and both bulk builders'
`addKey` reject with `KeyTooLong` exactly the keys of byte size `≥ 1024`
(so the boundary size 1024 itself is rejected), a rejection leaves the
index (resp. builder) unchanged, and keys of size `< 1024` pass the size
check. -/
theorem keyTooLong_amended :
    (∀ k : BKey, k.size < 1024 → checkKeySize k = Status.ok) ∧
      (∀ (t : UTable) (k : BKey) (loc : Nat) (d : Bool), 1024 ≤ k.size →
        uniqueIndexInsert t k loc d = (Status.keyTooLong, t)) ∧
      (∀ (t : STable) (k : BKey) (loc : Nat), 1024 ≤ k.size →
        stdIndexInsert t k loc = (Status.keyTooLong, t)) ∧
      (∀ (st : UniqueBulkState) (k : BKey) (loc : Nat) (d : Bool), 1024 ≤ k.size →
        uniqueBulkAddKey d st k loc = (Status.keyTooLong, st)) ∧
      (∀ (rows : STable) (k : BKey) (loc : Nat), 1024 ≤ k.size →
        stdBulkAddKey rows k loc = (Status.keyTooLong, rows)) := by
  refine ⟨?_, ?_, ?_, ?_, ?_⟩
  · intro k h
    simp [checkKeySize, TempKeyMaxSize, Nat.not_le.mpr h]
  · intro t k loc d h
    simp [uniqueIndexInsert, checkKeySize, TempKeyMaxSize, h]
  · intro t k loc h
    simp [stdIndexInsert, checkKeySize, TempKeyMaxSize, h]
  · intro st k loc d h
    simp [uniqueBulkAddKey, checkKeySize, TempKeyMaxSize, h]
  · intro rows k loc h
    simp [stdBulkAddKey, checkKeySize, TempKeyMaxSize, h]

/-- Witness for the amended C4. -/
theorem keyTooLong_amended_witness :
    checkKeySize { val := 0, tb := 0, size := 1023 } = Status.ok ∧
      uniqueIndexInsert [] { val := 0, tb := 0, size := 1024 } 1 true
        = (Status.keyTooLong, []) :=
  ⟨keyTooLong_amended.1 _ (by decide),
    keyTooLong_amended.2.1 [] _ 1 true (by decide)⟩

/-- **C10.** When the unique bulk builder's `addKey` returns an error
(`KeyTooLong` or `DuplicateKey`), the builder's pending state — the
pending key, the gathered records and the rows already emitted — is left
unchanged, so a subsequent `commit` writes only previously accepted
entries. -/
theorem uniqueBulkAddKey_error_preserves_state (d : Bool)
    (st : UniqueBulkState) (k : BKey) (loc : Nat)
    (h : (uniqueBulkAddKey d st k loc).1 ≠ Status.ok) :
    (uniqueBulkAddKey d st k loc).2 = st ∧
      uniqueBulkCommit (uniqueBulkAddKey d st k loc).2 = uniqueBulkCommit st := by
  have hst : (uniqueBulkAddKey d st k loc).2 = st := by
    unfold uniqueBulkAddKey at h ⊢
    by_cases hs : checkKeySize k ≠ Status.ok
    · simp [hs]
    · simp only [hs, if_false] at h ⊢
      match hk : st.key with
      | none => simp [hk] at h
      | some prev =>
        simp only [hk] at h ⊢
        by_cases he : k.val = prev.val
        · simp only [he, if_true] at h ⊢
          cases d with
          | true => simp at h
          | false => simp
        · simp [he] at h
  exact ⟨hst, by rw [hst]⟩

/-- Witness for C10: a `DuplicateKey` rejection on a repeated key with
`dups_allowed = false`. -/
theorem uniqueBulkAddKey_error_preserves_state_witness :
    (uniqueBulkAddKey false
        { key := some { val := 3, tb := 0, size := 8 }, records := [(1, 0)], rows := [] }
        { val := 3, tb := 0, size := 8 } 2).1 ≠ Status.ok ∧
      (uniqueBulkAddKey false
          { key := some { val := 3, tb := 0, size := 8 }, records := [(1, 0)], rows := [] }
          { val := 3, tb := 0, size := 8 } 2).2
        = { key := some { val := 3, tb := 0, size := 8 }, records := [(1, 0)], rows := [] } :=
  ⟨by decide,
    (uniqueBulkAddKey_error_preserves_state false
      { key := some { val := 3, tb := 0, size := 8 }, records := [(1, 0)], rows := [] }
      { val := 3, tb := 0, size := 8 } 2 (by decide)).1⟩

/-! ## Insert idempotence (C3) -/

theorem stdIndexInsert_of_size_ok (t : STable) (k : BKey) (loc : Nat)
    (h : k.size < TempKeyMaxSize) :
    stdIndexInsert t k loc = stdInsertRaw t k loc := by
  simp [stdIndexInsert, checkKeySize, Nat.not_le.mpr h]

theorem countKeyS_cons (r : EK × Nat) (rs : STable) (ek : EK) :
    countKeyS (r :: rs) ek = (if r.1 = ek then 1 else 0) + countKeyS rs ek := by
  unfold countKeyS
  rw [List.filter_cons]
  by_cases hr : r.1 = ek
  · rw [if_pos (by simp [hr]), if_pos hr, List.length_cons]
    omega
  · rw [if_neg (by simp [hr]), if_neg hr]
    omega

theorem countKeyS_insertRowS (t : STable) (ek : EK) (v : Nat) :
    countKeyS (insertRowS ek v t) ek = countKeyS t ek + 1 := by
  induction t with
  | nil => simp [insertRowS, countKeyS_cons, countKeyS]
  | cons r rs ih =>
    unfold insertRowS
    by_cases hlt : ekLt ek r.1
    · rw [if_pos hlt, countKeyS_cons]
      simp
      omega
    · rw [if_neg hlt, countKeyS_cons, countKeyS_cons, ih]
      omega

theorem lookupS_eq_none_of_not_mem_keys (t : STable) (ek : EK)
    (h : ek ∉ t.map Prod.fst) : lookupS t ek = none := by
  induction t with
  | nil => simp [lookupS]
  | cons r rs ih =>
    simp only [List.map_cons, List.mem_cons] at h
    push_neg at h
    simp only [lookupS, Ne.symm h.1, if_false]
    exact ih h.2

theorem countKeyS_eq_zero_of_lookup_none (t : STable) (ek : EK)
    (h : lookupS t ek = none) : countKeyS t ek = 0 := by
  induction t with
  | nil => simp [countKeyS]
  | cons r rs ih =>
    simp only [lookupS] at h
    by_cases hr : r.1 = ek
    · simp [hr] at h
    · rw [countKeyS_cons, if_neg hr, ih (by simpa [hr] using h)]

theorem countKeyS_eq_one_of_nodup (t : STable) (ek : EK) (w : Nat)
    (hn : (t.map Prod.fst).Nodup) (h : lookupS t ek = some w) :
    countKeyS t ek = 1 := by
  induction t with
  | nil => simp [lookupS] at h
  | cons r rs ih =>
    simp only [List.map_cons, List.nodup_cons] at hn
    simp only [lookupS] at h
    by_cases hr : r.1 = ek
    · have h0 : countKeyS rs ek = 0 :=
        countKeyS_eq_zero_of_lookup_none rs ek
          (lookupS_eq_none_of_not_mem_keys rs ek (hr ▸ hn.1))
      rw [countKeyS_cons, if_pos hr, h0]
    · rw [countKeyS_cons, if_neg hr]
      simpa using ih hn.2 (by simpa [hr] using h)

/-- **C3.** Inserting the exact pair `(K, L)` twice into either flavor
returns `Ok` both times and leaves exactly one entry for `(K, L)`: the
standard index maps the engine's duplicate-key answer on an identical row
to `Ok`, and the unique index returns `Ok` as soon as it finds `L` in the
stored duplicate list, in both cases without touching the table again. -/
theorem insert_exact_pair_idempotent :
    (∀ (t : STable) (k : BKey) (loc : Nat),
      (t.map Prod.fst).Nodup → k.size < TempKeyMaxSize →
      (stdIndexInsert t k loc).1 = Status.ok ∧
        stdIndexInsert (stdIndexInsert t k loc).2 k loc
          = (Status.ok, (stdIndexInsert t k loc).2) ∧
        countKeyS (stdIndexInsert t k loc).2 (stdEK k loc) = 1) ∧
    (∀ (t : UTable) (k : BKey) (loc : Nat) (d : Bool),
      k.size < TempKeyMaxSize →
      (∀ v, lookupU t (encInc k) = some v → (locsOf v).Pairwise (· < ·)) →
      (uniqueIndexInsert t k loc d).1 = Status.ok →
      uniqueIndexInsert (uniqueIndexInsert t k loc d).2 k loc d
          = (Status.ok, (uniqueIndexInsert t k loc d).2) ∧
        ∃ v1, lookupU (uniqueIndexInsert t k loc d).2 (encInc k) = some v1 ∧
          (locsOf v1).count loc = 1) := by
  constructor
  · intro t k loc hn hsize
    rw [stdIndexInsert_of_size_ok t k loc hsize]
    match hl : lookupS t (stdEK k loc) with
    | none =>
      have h1 : stdInsertRaw t k loc = (Status.ok, insertRowS (stdEK k loc) k.tb t) := by
        simp [stdInsertRaw, wtInsertS, hl]
      rw [h1]
      have hl1 : lookupS (insertRowS (stdEK k loc) k.tb t) (stdEK k loc) = some k.tb :=
        lookupS_insertRowS_self t (stdEK k loc) k.tb hl
      refine ⟨rfl, ?_, ?_⟩
      · rw [stdIndexInsert_of_size_ok _ k loc hsize]
        simp [stdInsertRaw, wtInsertS, hl1]
      · rw [countKeyS_insertRowS, countKeyS_eq_zero_of_lookup_none t _ hl]
    | some w =>
      have h1 : stdInsertRaw t k loc = (Status.ok, t) := by
        simp [stdInsertRaw, wtInsertS, hl]
      rw [h1]
      refine ⟨rfl, ?_, countKeyS_eq_one_of_nodup t _ w hn hl⟩
      rw [stdIndexInsert_of_size_ok _ k loc hsize]
      simp [stdInsertRaw, wtInsertS, hl]
  · intro t k loc d hsize hWF hOk
    rw [uniqueIndexInsert_of_size_ok t k loc d hsize] at hOk ⊢
    have key : ∃ v1, lookupU (uniqueInsertRaw t k loc d).2 (encInc k) = some v1 ∧
        loc ∈ locsOf v1 ∧ (locsOf v1).Pairwise (· < ·) := by
      match hl : lookupU t (encInc k) with
      | none =>
        rw [uniqueInsertRaw_absent t k loc d hl]
        exact ⟨mkFreshUVal loc k.tb,
          lookupU_insertRowU_self t _ _ hl, by simp [mkFreshUVal, locsOf],
          by simp [mkFreshUVal, locsOf]⟩
      | some v =>
        by_cases hm : loc ∈ locsOf v
        · rw [uniqueInsertRaw_mem t k loc d v hl hm]
          exact ⟨v, hl, hm, hWF v hl⟩
        · cases d with
          | false => rw [uniqueInsertRaw_dup t k loc v hl hm] at hOk; simp at hOk
          | true =>
            rw [uniqueInsertRaw_splice t k loc v hl hm]
            refine ⟨spliceEntries loc k.tb v,
              lookupU_wtUpdateU_self t _ _ v hl, ?_, ?_⟩
            · rw [locsOf_spliceEntries]
              exact (mem_sortedInsertLoc loc loc (locsOf v)).mpr (Or.inl rfl)
            · rw [locsOf_spliceEntries]
              exact pairwise_sortedInsertLoc loc (locsOf v) (hWF v hl) hm
    obtain ⟨v1, hv1, hm1, hp1⟩ := key
    refine ⟨?_, v1, hv1, List.count_eq_one_of_mem hp1.nodup hm1⟩
    have h2 := uniqueInsertRaw_mem (uniqueInsertRaw t k loc d).2 k loc d v1 hv1 hm1
    rw [uniqueIndexInsert_of_size_ok _ k loc d hsize, h2]

/-- Witness for C3: both conjuncts at concrete inputs. -/
theorem insert_exact_pair_idempotent_witness :
    ((stdIndexInsert [] { val := 2, tb := 0, size := 9 } 4).1 = Status.ok ∧
      stdIndexInsert (stdIndexInsert [] { val := 2, tb := 0, size := 9 } 4).2
          { val := 2, tb := 0, size := 9 } 4
        = (Status.ok, (stdIndexInsert [] { val := 2, tb := 0, size := 9 } 4).2) ∧
      countKeyS (stdIndexInsert [] { val := 2, tb := 0, size := 9 } 4).2
        (stdEK { val := 2, tb := 0, size := 9 } 4) = 1) ∧
    (uniqueIndexInsert (uniqueIndexInsert [] { val := 2, tb := 0, size := 9 } 4 true).2
        { val := 2, tb := 0, size := 9 } 4 true
      = (Status.ok, (uniqueIndexInsert [] { val := 2, tb := 0, size := 9 } 4 true).2) ∧
      ∃ v1, lookupU (uniqueIndexInsert [] { val := 2, tb := 0, size := 9 } 4 true).2
          (encInc { val := 2, tb := 0, size := 9 }) = some v1 ∧
        (locsOf v1).count 4 = 1) :=
  ⟨insert_exact_pair_idempotent.1 [] { val := 2, tb := 0, size := 9 } 4
      (by decide) (by decide),
    insert_exact_pair_idempotent.2 [] { val := 2, tb := 0, size := 9 } 4 true
      (by decide) (by intro v h; simp [lookupU] at h) (by decide)⟩

/-! ## Duplicate-list ordering under repeated inserts (C2) -/

theorem insertAll_invariant (k : BKey) (hsize : k.size < TempKeyMaxSize) :
    ∀ (ls : List Nat) (t : UTable) (v : List UEntry),
      lookupU t (encInc k) = some v → (locsOf v).Pairwise (· < ·) →
      ∃ w, lookupU (insertAll t k ls) (encInc k) = some w ∧
        (locsOf w).Pairwise (· < ·) ∧
        (∀ l, l ∈ locsOf w ↔ l ∈ locsOf v ∨ l ∈ ls) := by
  intro ls
  induction ls with
  | nil =>
    intro t v hv hp
    exact ⟨v, hv, hp, by simp⟩
  | cons l rest ih =>
    intro t v hv hp
    simp only [insertAll, uniqueIndexInsert_of_size_ok t k l true hsize]
    by_cases hm : l ∈ locsOf v
    · rw [uniqueInsertRaw_mem t k l true v hv hm]
      obtain ⟨w, hw, hwp, hwm⟩ := ih t v hv hp
      refine ⟨w, hw, hwp, ?_⟩
      intro m
      rw [hwm m]
      constructor
      · rintro (h | h)
        · exact Or.inl h
        · exact Or.inr (List.mem_cons_of_mem l h)
      · rintro (h | h)
        · exact Or.inl h
        · rcases List.mem_cons.mp h with rfl | h
          · exact Or.inl hm
          · exact Or.inr h
    · rw [uniqueInsertRaw_splice t k l v hv hm]
      have hv1 := lookupU_wtUpdateU_self t (encInc k) (spliceEntries l k.tb v) v hv
      have hp1 : (locsOf (spliceEntries l k.tb v)).Pairwise (· < ·) := by
        rw [locsOf_spliceEntries]
        exact pairwise_sortedInsertLoc l (locsOf v) hp hm
      obtain ⟨w, hw, hwp, hwm⟩ := ih _ _ hv1 hp1
      refine ⟨w, hw, hwp, ?_⟩
      intro m
      rw [hwm m, locsOf_spliceEntries, mem_sortedInsertLoc]
      constructor
      · rintro ((rfl | h) | h)
        · exact Or.inr (List.mem_cons_self _ _)
        · exact Or.inl h
        · exact Or.inr (List.mem_cons_of_mem l h)
      · rintro (h | h)
        · exact Or.inl (Or.inr h)
        · rcases List.mem_cons.mp h with rfl | h
          · exact Or.inl (Or.inl rfl)
          · exact Or.inr h

/-- **C2.** After any sequence of `insert (K, L_i, dups_allowed := true)`
starting from a table with no row at `K`, the engine value at `encode(K)`
is the list of `(record id, type bits)` tuples for exactly the distinct
`L_i`, in strictly ascending record-id order; and each single insert of a
fresh `L` rewrites the stored value by splicing `(L, tb)` in before the
first stored record id greater than `L` (appending when there is none),
i.e. by ordered insertion into the record-id list. -/
theorem unique_duplicate_list_sorted :
    (∀ (t : UTable) (k : BKey) (ls : List Nat), k.size < TempKeyMaxSize →
      lookupU t (encInc k) = none → ls ≠ [] →
      ∃ w, lookupU (insertAll t k ls) (encInc k) = some w ∧
        (locsOf w).Pairwise (· < ·) ∧ (∀ l, l ∈ locsOf w ↔ l ∈ ls)) ∧
    (∀ (t : UTable) (k : BKey) (loc : Nat) (v : List UEntry),
      k.size < TempKeyMaxSize → lookupU t (encInc k) = some v →
      loc ∉ locsOf v →
      lookupU (uniqueIndexInsert t k loc true).2 (encInc k)
          = some (spliceEntries loc k.tb v) ∧
        locsOf (spliceEntries loc k.tb v) = sortedInsertLoc loc (locsOf v)) := by
  constructor
  · intro t k ls hsize h0 hne
    match ls with
    | [] => exact absurd rfl hne
    | l :: rest =>
      simp only [insertAll, uniqueIndexInsert_of_size_ok t k l true hsize]
      rw [uniqueInsertRaw_absent t k l true h0]
      have hv1 := lookupU_insertRowU_self t (encInc k) (mkFreshUVal l k.tb) h0
      obtain ⟨w, hw, hwp, hwm⟩ := insertAll_invariant k hsize rest _ _ hv1
        (by simp [mkFreshUVal, locsOf])
      refine ⟨w, hw, hwp, ?_⟩
      intro m
      rw [hwm m]
      simp [mkFreshUVal, locsOf]
  · intro t k loc v hsize hv hm
    rw [uniqueIndexInsert_of_size_ok t k loc true hsize,
      uniqueInsertRaw_splice t k loc v hv hm]
    exact ⟨lookupU_wtUpdateU_self t (encInc k) _ v hv, locsOf_spliceEntries loc k.tb v⟩

/-- Witness for C2: three out-of-order inserts at one key, and one splice
into an existing two-entry row. -/
theorem unique_duplicate_list_sorted_witness :
    (∃ w, lookupU (insertAll [] { val := 5, tb := 0, size := 8 } [3, 1, 2])
          (encInc { val := 5, tb := 0, size := 8 }) = some w ∧
        (locsOf w).Pairwise (· < ·) ∧ (∀ l, l ∈ locsOf w ↔ l ∈ [3, 1, 2])) ∧
      (lookupU (uniqueIndexInsert
            [(encInc { val := 5, tb := 0, size := 8 },
              [{ loc := 1, tb := some 0 }, { loc := 3, tb := some 0 }])]
            { val := 5, tb := 0, size := 8 } 2 true).2
          (encInc { val := 5, tb := 0, size := 8 })
        = some (spliceEntries 2 0
            [{ loc := 1, tb := some 0 }, { loc := 3, tb := some 0 }]) ∧
       locsOf (spliceEntries 2 0
            [{ loc := 1, tb := some 0 }, { loc := 3, tb := some 0 }])
        = sortedInsertLoc 2 (locsOf
            [{ loc := 1, tb := some 0 }, { loc := 3, tb := some 0 }])) :=
  ⟨unique_duplicate_list_sorted.1 [] { val := 5, tb := 0, size := 8 } [3, 1, 2]
      (by decide) (by decide) (by decide),
    unique_duplicate_list_sorted.2
      [(encInc { val := 5, tb := 0, size := 8 },
        [{ loc := 1, tb := some 0 }, { loc := 3, tb := some 0 }])]
      { val := 5, tb := 0, size := 8 } 2
      [{ loc := 1, tb := some 0 }, { loc := 3, tb := some 0 }]
      (by decide) (by decide) (by decide)⟩

/-! ## The `_unindex` scan (C9) -/

theorem decPair_explEntry (e : UEntry) : decPair (explEntry e) = decPair e := by
  simp [decPair, explEntry, decodeTb]

theorem unindexWalk_not_mem (loc : Nat) (v : List UEntry) (hm : loc ∉ locsOf v) :
    ∀ (f : Bool) (acc : List (Nat × Nat)),
      unindexWalk loc f acc v = some (f, acc ++ v.map decPair) := by
  induction v with
  | nil => intro f acc; simp [unindexWalk]
  | cons e rest ih =>
    intro f acc
    simp only [locsOf, List.map_cons, List.mem_cons] at hm
    push_neg at hm
    rw [show unindexWalk loc f acc (e :: rest)
        = unindexWalk loc f (acc ++ [(e.loc, decodeTb e.tb)]) rest by
      simp [unindexWalk, hm.1]]
    rw [ih (by simpa [locsOf] using hm.2) f (acc ++ [(e.loc, decodeTb e.tb)])]
    simp [decPair]

theorem unindexWalk_spliceEntries (loc tb : Nat) :
    ∀ (v : List UEntry), loc ∉ locsOf v →
      ∀ acc : List (Nat × Nat), acc ≠ [] ∨ v ≠ [] →
      unindexWalk loc false acc (spliceEntries loc tb v)
        = some (true, acc ++ v.map decPair) := by
  intro v
  induction v with
  | nil =>
    intro _ acc hne
    have hacc : acc ≠ [] := by tauto
    simp [spliceEntries, unindexWalk, hacc]
  | cons e rest ih =>
    intro hm acc hne
    simp only [locsOf, List.map_cons, List.mem_cons] at hm
    push_neg at hm
    by_cases hlt : loc < e.loc
    · simp only [spliceEntries, hlt, if_true]
      rw [show unindexWalk loc false acc
          ({ loc := loc, tb := some tb } :: (e :: rest).map explEntry)
          = unindexWalk loc true acc ((e :: rest).map explEntry) by
        simp [unindexWalk]]
      have hm1 : loc ∉ locsOf ((e :: rest).map explEntry) := by
        rw [locsOf_map_explEntry]
        simp only [locsOf, List.map_cons, List.mem_cons]
        push_neg
        exact ⟨hm.1, by simpa [locsOf] using hm.2⟩
      rw [unindexWalk_not_mem loc _ hm1 true acc]
      rw [List.map_map]
      have : decPair ∘ explEntry = decPair := funext decPair_explEntry
      rw [this]
    · simp only [spliceEntries, hlt, if_false]
      rw [show unindexWalk loc false acc
          (explEntry e :: spliceEntries loc tb rest)
          = unindexWalk loc false (acc ++ [(e.loc, decodeTb e.tb)])
            (spliceEntries loc tb rest) by
        simp [unindexWalk, explEntry, hm.1, decodeTb]]
      rw [ih (by simpa [locsOf] using hm.2) _ (Or.inl (by simp))]
      simp [decPair]

theorem map_explEntry_eq_self (v : List UEntry) (h : ∀ e ∈ v, e.tb ≠ none) :
    v.map explEntry = v := by
  induction v with
  | nil => rfl
  | cons e rest ih =>
    have he := h e (List.mem_cons_self _ _)
    match het : e.tb with
    | none => exact absurd het he
    | some t =>
      cases e with
      | mk l tbo =>
        simp only at het
        subst het
        simp only [List.map_cons, explEntry, decodeTb, Option.getD_some]
        rw [ih (fun x hx => h x (List.mem_cons_of_mem _ hx))]

theorem rebuildVal_map_decPair (v : List UEntry) (hWF : valWF v) :
    rebuildVal (v.map decPair) = v := by
  match v with
  | [] => rfl
  | [e] =>
    have he := hWF.2.2.1 e rfl
    cases e with
    | mk l tbo =>
      match het : tbo with
      | none => simp [rebuildVal, decPair, decodeTb]
      | some t =>
        have ht : t ≠ 0 := by
          rintro rfl
          exact he (by simp)
        simp [rebuildVal, decPair, decodeTb, ht]
  | a :: b :: rest =>
    have hmulti := hWF.2.2.2 (by simp)
    have hstep : rebuildVal ((a :: b :: rest).map decPair)
        = ((a :: b :: rest).map decPair).map
            (fun r => { loc := r.1, tb := some r.2 }) := by
      unfold rebuildVal
      apply List.map_congr_left
      intro r _
      have hlen : ¬(r.2 = 0 ∧ ((a :: b :: rest).map decPair).length = 1) := by
        simp
      simp [hlen]
    rw [hstep, List.map_map]
    have hc : (fun r => ({ loc := r.1, tb := some r.2 } : UEntry)) ∘ decPair
        = explEntry := by
      funext e
      simp [decPair, explEntry]
    rw [hc]
    exact map_explEntry_eq_self _ hmulti

theorem uniqueUnindex_true_of_lookup (t : UTable) (k : BKey) (loc : Nat)
    (old : List UEntry) (h : lookupU t (encInc k) = some old) :
    uniqueUnindex t k loc true
      = match unindexWalk loc false [] old with
        | none => wtRemoveU t (encInc k)
        | some (found, records) =>
          if !found then t else wtUpdateU t (encInc k) (rebuildVal records) := by
  simp [uniqueUnindex, h]

theorem uniqueUnindex_true_of_lookup_none (t : UTable) (k : BKey) (loc : Nat)
    (h : lookupU t (encInc k) = none) : uniqueUnindex t k loc true = t := by
  simp [uniqueUnindex, h]

theorem uniqueUnindex_false_eq (t : UTable) (k : BKey) (loc : Nat) :
    uniqueUnindex t k loc false = wtRemoveU t (encInc k) := by
  simp [uniqueUnindex]

/-- **C9 counterexample.** The claim quantifies over *every* successful
insert and says unindex of a missing pair is a no-op in both flavors.
Both parts fail: re-inserting an already present `(K, L)` succeeds (the
idempotent path) but the following `unindex` removes the entry instead of
restoring the pre-insert table; and the unique flavor with
`dups_allowed = false` removes the whole row at `K` even though the
requested `(K, L)` is not present. -/
theorem delete_inverse_cex :
    (stdIndexInsert [(stdEK { val := 3, tb := 0, size := 4 } 5, 0)]
        { val := 3, tb := 0, size := 4 } 5
      = (Status.ok, [(stdEK { val := 3, tb := 0, size := 4 } 5, 0)]) ∧
     stdUnindex [(stdEK { val := 3, tb := 0, size := 4 } 5, 0)]
        { val := 3, tb := 0, size := 4 } 5 = [] ∧
     ([] : STable) ≠ [(stdEK { val := 3, tb := 0, size := 4 } 5, 0)]) ∧
    (uniqueUnindex [(encInc { val := 3, tb := 0, size := 4 }, [{ loc := 5, tb := none }])]
        { val := 3, tb := 0, size := 4 } 7 false = [] ∧
     ([] : UTable)
       ≠ [(encInc { val := 3, tb := 0, size := 4 }, [{ loc := 5, tb := none }])]) := by
  refine ⟨⟨?_, ?_, ?_⟩, ?_, ?_⟩ <;> decide

/-- **C9 (amended).** For every successful insert of a pair `(K, L)` that
was *not already present*, the following `unindex (K, L)` with the same
`dups_allowed` restores the pre-insert table exactly: the whole row is
removed when `L` was the sole entry, and otherwise the shortened
duplicate list (type bits omitted again for a remaining single all-zero
entry) is written back.  `unindex` of a not-present `(K, L)` is a no-op
in the standard flavor and in the unique flavor with
`dups_allowed = true`; the unique flavor with `dups_allowed = false`
issues a blind engine remove of the row at `K`. -/
theorem delete_inverse_amended :
    (∀ (t : STable) (k : BKey) (loc : Nat), k.size < TempKeyMaxSize →
      lookupS t (stdEK k loc) = none →
      (stdIndexInsert t k loc).1 = Status.ok ∧
        stdUnindex (stdIndexInsert t k loc).2 k loc = t) ∧
    (∀ (t : STable) (k : BKey) (loc : Nat),
      lookupS t (stdEK k loc) = none → stdUnindex t k loc = t) ∧
    (∀ (t : UTable) (k : BKey) (loc : Nat), k.size < TempKeyMaxSize →
      lookupU t (encInc k) = none →
      (uniqueIndexInsert t k loc true).1 = Status.ok ∧
        uniqueUnindex (uniqueIndexInsert t k loc true).2 k loc true = t) ∧
    (∀ (t : UTable) (k : BKey) (loc : Nat) (v : List UEntry),
      k.size < TempKeyMaxSize → lookupU t (encInc k) = some v → valWF v →
      loc ∉ locsOf v →
      (uniqueIndexInsert t k loc true).1 = Status.ok ∧
        uniqueUnindex (uniqueIndexInsert t k loc true).2 k loc true = t) ∧
    (∀ (t : UTable) (k : BKey) (loc : Nat) (v : List UEntry),
      lookupU t (encInc k) = some v → loc ∉ locsOf v →
      uniqueUnindex t k loc true = t) ∧
    (∀ (t : UTable) (k : BKey) (loc : Nat),
      lookupU t (encInc k) = none → uniqueUnindex t k loc true = t) ∧
    (∀ (t : UTable) (k : BKey) (loc : Nat), k.size < TempKeyMaxSize →
      lookupU t (encInc k) = none →
      (uniqueIndexInsert t k loc false).1 = Status.ok ∧
        uniqueUnindex (uniqueIndexInsert t k loc false).2 k loc false = t) := by
  refine ⟨?_, ?_, ?_, ?_, ?_, ?_, ?_⟩
  · intro t k loc hsize hl
    rw [stdIndexInsert_of_size_ok t k loc hsize]
    have h1 : stdInsertRaw t k loc = (Status.ok, insertRowS (stdEK k loc) k.tb t) := by
      simp [stdInsertRaw, wtInsertS, hl]
    rw [h1]
    exact ⟨rfl, wtRemoveS_insertRowS t (stdEK k loc) k.tb hl⟩
  · intro t k loc hl
    exact wtRemoveS_eq_of_lookup_none t (stdEK k loc) hl
  · intro t k loc hsize hl
    rw [uniqueIndexInsert_of_size_ok t k loc true hsize,
      uniqueInsertRaw_absent t k loc true hl]
    refine ⟨rfl, ?_⟩
    show uniqueUnindex (insertRowU (encInc k) (mkFreshUVal loc k.tb) t) k loc true = t
    rw [uniqueUnindex_true_of_lookup _ k loc (mkFreshUVal loc k.tb)
        (lookupU_insertRowU_self t (encInc k) (mkFreshUVal loc k.tb) hl),
      show unindexWalk loc false [] (mkFreshUVal loc k.tb) = none by
        simp [unindexWalk, mkFreshUVal]]
    exact wtRemoveU_insertRowU t (encInc k) (mkFreshUVal loc k.tb) hl
  · intro t k loc v hsize hv hWF hm
    rw [uniqueIndexInsert_of_size_ok t k loc true hsize,
      uniqueInsertRaw_splice t k loc v hv hm]
    refine ⟨rfl, ?_⟩
    show uniqueUnindex (wtUpdateU t (encInc k) (spliceEntries loc k.tb v)) k loc true = t
    rw [uniqueUnindex_true_of_lookup _ k loc (spliceEntries loc k.tb v)
        (lookupU_wtUpdateU_self t (encInc k) (spliceEntries loc k.tb v) v hv),
      unindexWalk_spliceEntries loc k.tb v hm [] (Or.inr hWF.1)]
    show wtUpdateU (wtUpdateU t (encInc k) (spliceEntries loc k.tb v)) (encInc k)
        (rebuildVal (v.map decPair)) = t
    rw [rebuildVal_map_decPair v hWF, wtUpdateU_wtUpdateU,
      wtUpdateU_eq_of_lookup t (encInc k) v hv]
  · intro t k loc v hv hm
    rw [uniqueUnindex_true_of_lookup t k loc v hv,
      unindexWalk_not_mem loc v hm false []]
    rfl
  · intro t k loc hl
    exact uniqueUnindex_true_of_lookup_none t k loc hl
  · intro t k loc hsize hl
    rw [uniqueIndexInsert_of_size_ok t k loc false hsize,
      uniqueInsertRaw_absent t k loc false hl]
    refine ⟨rfl, ?_⟩
    show uniqueUnindex (insertRowU (encInc k) (mkFreshUVal loc k.tb) t) k loc false = t
    rw [uniqueUnindex_false_eq]
    exact wtRemoveU_insertRowU t (encInc k) (mkFreshUVal loc k.tb) hl

/-- Witness for the amended C9: a splice insert into a two-entry row and
its inverse unindex. -/
theorem delete_inverse_amended_witness :
    (uniqueIndexInsert
        [(encInc { val := 2, tb := 0, size := 6 },
          [{ loc := 1, tb := some 4 }, { loc := 9, tb := some 0 }])]
        { val := 2, tb := 0, size := 6 } 5 true).1 = Status.ok ∧
      uniqueUnindex (uniqueIndexInsert
          [(encInc { val := 2, tb := 0, size := 6 },
            [{ loc := 1, tb := some 4 }, { loc := 9, tb := some 0 }])]
          { val := 2, tb := 0, size := 6 } 5 true).2
        { val := 2, tb := 0, size := 6 } 5 true
        = [(encInc { val := 2, tb := 0, size := 6 },
            [{ loc := 1, tb := some 4 }, { loc := 9, tb := some 0 }])] :=
  delete_inverse_amended.2.2.2.1
    [(encInc { val := 2, tb := 0, size := 6 },
      [{ loc := 1, tb := some 4 }, { loc := 9, tb := some 0 }])]
    { val := 2, tb := 0, size := 6 } 5
    [{ loc := 1, tb := some 4 }, { loc := 9, tb := some 0 }]
    (by decide) (by decide)
    (by refine ⟨by decide, by decide, ?_, ?_⟩
        · intro e he
          simp at he
        · intro h e he
          fin_cases he <;> decide)
    (by decide)

/-! ## The unique bulk builder groups duplicate keys (C5) -/

theorem uniqueBulkAddKey_some_eq (d : Bool) (p k : BKey)
    (recs : List (Nat × Nat)) (rows : List (Nat × List UEntry)) (l : Nat)
    (hks : k.size < TempKeyMaxSize) :
    uniqueBulkAddKey d { key := some p, records := recs, rows := rows } k l
      = if k.val = p.val then
          (if !d then
            (Status.duplicateKey,
              { key := some p, records := recs, rows := rows })
           else (Status.ok,
            { key := some k, records := recs ++ [(l, k.tb)], rows := rows }))
        else
          (Status.ok,
            { key := some k
              records := [(l, k.tb)]
              rows := rows ++ [(encInc p, bulkVal recs)] }) := by
  unfold uniqueBulkAddKey
  rw [show checkKeySize k = Status.ok from by
    simp [checkKeySize, Nat.not_le.mpr hks]]
  simp

theorem bulkAddAll_groupSeed :
    ∀ (inputs : List (BKey × Nat)) (p : BKey) (recs : List (Nat × Nat))
      (rows : List (Nat × List UEntry)), recs ≠ [] →
      (∀ q ∈ inputs, q.1.size < TempKeyMaxSize) →
      uniqueBulkCommit (bulkAddAll true
          { key := some p, records := recs, rows := rows } inputs)
        = rows ++ (groupSeed p recs inputs).map groupRow := by
  intro inputs
  induction inputs with
  | nil =>
    intro p recs rows hrecs _
    match recs with
    | [] => exact absurd rfl hrecs
    | r :: rs => simp [bulkAddAll, uniqueBulkCommit, groupSeed, groupRow]
  | cons q rest ih =>
    intro p recs rows hrecs hsizes
    obtain ⟨k, l⟩ := q
    have hks : k.size < TempKeyMaxSize := hsizes (k, l) (List.mem_cons_self _ _)
    have hrest : ∀ q ∈ rest, q.1.size < TempKeyMaxSize :=
      fun q hq => hsizes q (List.mem_cons_of_mem _ hq)
    simp only [bulkAddAll]
    rw [uniqueBulkAddKey_some_eq true p k recs rows l hks]
    by_cases he : k.val = p.val
    · rw [if_pos he]
      show uniqueBulkCommit (bulkAddAll true
          { key := some k, records := recs ++ [(l, k.tb)], rows := rows } rest)
        = rows ++ (groupSeed p recs ((k, l) :: rest)).map groupRow
      rw [ih k (recs ++ [(l, k.tb)]) rows (by simp) hrest,
        show groupSeed p recs ((k, l) :: rest)
            = groupSeed k (recs ++ [(l, k.tb)]) rest from by
          simp [groupSeed, he]]
    · rw [if_neg he]
      show uniqueBulkCommit (bulkAddAll true
          { key := some k, records := [(l, k.tb)],
            rows := rows ++ [(encInc p, bulkVal recs)] } rest)
        = rows ++ (groupSeed p recs ((k, l) :: rest)).map groupRow
      rw [ih k [(l, k.tb)] (rows ++ [(encInc p, bulkVal recs)]) (by simp) hrest,
        show groupSeed p recs ((k, l) :: rest)
            = (p, recs) :: groupSeed k [(l, k.tb)] rest from by
          simp [groupSeed, he]]
      simp [groupRow]

theorem groupSeed_keys_cases :
    ∀ (inputs : List (BKey × Nat)) (p : BKey) (recs : List (Nat × Nat)),
      ∀ g ∈ groupSeed p recs inputs,
        g.1.val = p.val ∨ ∃ q ∈ inputs, g.1.val = q.1.val := by
  intro inputs
  induction inputs with
  | nil =>
    intro p recs g hg
    simp only [groupSeed, List.mem_singleton] at hg
    subst hg
    exact Or.inl rfl
  | cons q rest ih =>
    intro p recs g hg
    obtain ⟨k, l⟩ := q
    by_cases he : k.val = p.val
    · simp only [groupSeed, he, if_pos rfl] at hg
      rcases ih k (recs ++ [(l, k.tb)]) g hg with h | ⟨q, hq, hqe⟩
      · exact Or.inr ⟨(k, l), List.mem_cons_self _ _, h⟩
      · exact Or.inr ⟨q, List.mem_cons_of_mem _ hq, hqe⟩
    · simp only [groupSeed, he, if_neg he] at hg
      cases hg with
      | head => exact Or.inl rfl
      | tail _ hmem =>
        rcases ih k [(l, k.tb)] g hmem with h | ⟨q, hq, hqe⟩
        · exact Or.inr ⟨(k, l), List.mem_cons_self _ _, h⟩
        · exact Or.inr ⟨q, List.mem_cons_of_mem _ hq, hqe⟩

theorem groupSeed_keys_sorted :
    ∀ (inputs : List (BKey × Nat)) (p : BKey) (recs : List (Nat × Nat)),
      inputs.Pairwise (fun a b => a.1.val ≤ b.1.val) →
      (∀ q ∈ inputs, p.val ≤ q.1.val) →
      ((groupSeed p recs inputs).map (fun g => g.1.val)).Pairwise (· < ·) := by
  intro inputs
  induction inputs with
  | nil => intro p recs _ _; simp [groupSeed]
  | cons q rest ih =>
    intro p recs hchain hge
    obtain ⟨k, l⟩ := q
    rcases List.pairwise_cons.mp hchain with ⟨hk, hrest⟩
    by_cases he : k.val = p.val
    · simp only [groupSeed, he, if_pos rfl]
      exact ih k (recs ++ [(l, k.tb)]) hrest hk
    · have hpk : p.val < k.val :=
        lt_of_le_of_ne (hge (k, l) (List.mem_cons_self _ _)) (Ne.symm he)
      simp only [groupSeed, if_neg he, List.map_cons]
      refine List.pairwise_cons.mpr ⟨?_, ih k [(l, k.tb)] hrest hk⟩
      intro m hm
      simp only [List.mem_map] at hm
      obtain ⟨g, hg, rfl⟩ := hm
      rcases groupSeed_keys_cases rest k [(l, k.tb)] g hg with h | ⟨q, hq, hqe⟩
      · rw [h]; exact hpk
      · rw [hqe]; exact lt_of_lt_of_le hpk (hk q hq)

/-- **C5.** Feeding the unique bulk builder keys in non-decreasing order
with `dups_allowed = true` and committing produces exactly one row per
distinct key: the `(key, loc)` feed is grouped by equal keys, each group
emitting `(encode(key), duplicate list of its locs)` with the type bits
omitted for a single all-zero record (`groupRow`/`bulkVal`), and the row
keys are strictly increasing; with `dups_allowed = false`, `addKey` of a
key equal to the pending one returns `DuplicateKey`. -/
theorem unique_bulk_builder_grouping :
    (∀ (inputs : List (BKey × Nat)),
      inputs.Pairwise (fun a b => a.1.val ≤ b.1.val) →
      (∀ q ∈ inputs, q.1.size < TempKeyMaxSize) →
      uniqueBulkCommit (bulkAddAll true emptyBulkState inputs)
          = (groupInputs inputs).map groupRow ∧
        ((groupInputs inputs).map (fun g => g.1.val)).Pairwise (· < ·)) ∧
    (∀ (st : UniqueBulkState) (k : BKey) (loc : Nat) (prev : BKey),
      st.key = some prev → k.val = prev.val → k.size < TempKeyMaxSize →
      uniqueBulkAddKey false st k loc = (Status.duplicateKey, st)) := by
  constructor
  · intro inputs hchain hsizes
    match inputs with
    | [] => exact ⟨rfl, by simp [groupInputs]⟩
    | (k, l) :: rest =>
      have hks : k.size < TempKeyMaxSize := hsizes (k, l) (List.mem_cons_self _ _)
      have hrest : ∀ q ∈ rest, q.1.size < TempKeyMaxSize :=
        fun q hq => hsizes q (List.mem_cons_of_mem _ hq)
      rcases List.pairwise_cons.mp hchain with ⟨hk, hrestc⟩
      constructor
      · simp only [bulkAddAll]
        rw [show uniqueBulkAddKey true emptyBulkState k l
            = (Status.ok, { key := some k, records := [(l, k.tb)], rows := [] }) from by
          unfold uniqueBulkAddKey emptyBulkState
          rw [show checkKeySize k = Status.ok from by
            simp [checkKeySize, Nat.not_le.mpr hks]]
          simp]
        show uniqueBulkCommit (bulkAddAll true
            { key := some k, records := [(l, k.tb)], rows := [] } rest)
          = (groupInputs ((k, l) :: rest)).map groupRow
        rw [bulkAddAll_groupSeed rest k [(l, k.tb)] [] (by simp) hrest]
        simp [groupInputs]
      · exact groupSeed_keys_sorted rest k [(l, k.tb)] hrestc hk
  · intro st k loc prev hst he hks
    match st, hst with
    | { key := some prev, records := recs, rows := rows }, rfl =>
      rw [uniqueBulkAddKey_some_eq false prev k recs rows loc hks, if_pos he]
      simp

/-- Witness for C5: the spec's bulk scenario S6 plus one duplicate-key
rejection. -/
theorem unique_bulk_builder_grouping_witness :
    (uniqueBulkCommit (bulkAddAll true emptyBulkState
        [({ val := 1, tb := 0, size := 7 }, 1), ({ val := 1, tb := 0, size := 7 }, 2),
         ({ val := 2, tb := 0, size := 7 }, 5), ({ val := 3, tb := 0, size := 7 }, 9)])
        = (groupInputs
            [({ val := 1, tb := 0, size := 7 }, 1), ({ val := 1, tb := 0, size := 7 }, 2),
             ({ val := 2, tb := 0, size := 7 }, 5),
             ({ val := 3, tb := 0, size := 7 }, 9)]).map groupRow ∧
      ((groupInputs
          [({ val := 1, tb := 0, size := 7 }, 1), ({ val := 1, tb := 0, size := 7 }, 2),
           ({ val := 2, tb := 0, size := 7 }, 5),
           ({ val := 3, tb := 0, size := 7 }, 9)]).map (fun g => g.1.val)).Pairwise
        (· < ·)) ∧
    uniqueBulkAddKey false
        { key := some { val := 4, tb := 0, size := 7 }, records := [(2, 0)], rows := [] }
        { val := 4, tb := 0, size := 7 } 3
      = (Status.duplicateKey,
          { key := some { val := 4, tb := 0, size := 7 }, records := [(2, 0)], rows := [] }) :=
  ⟨unique_bulk_builder_grouping.1
      [({ val := 1, tb := 0, size := 7 }, 1), ({ val := 1, tb := 0, size := 7 }, 2),
       ({ val := 2, tb := 0, size := 7 }, 5), ({ val := 3, tb := 0, size := 7 }, 9)]
      (by decide)
      (by intro q hq; fin_cases hq <;> decide),
    unique_bulk_builder_grouping.2
      { key := some { val := 4, tb := 0, size := 7 }, records := [(2, 0)], rows := [] }
      { val := 4, tb := 0, size := 7 } 3 { val := 4, tb := 0, size := 7 }
      rfl rfl (by decide)⟩

/-! ## Order facts about engine keys and list search helpers -/

theorem ekLtP_trans {a b c : EK} (h1 : ekLtP a b) (h2 : ekLtP b c) : ekLtP a c := by
  unfold ekLtP at h1 h2 ⊢
  omega

theorem ekLt_eq_false_iff (a b : EK) : ekLt a b = false ↔ ¬ ekLtP a b := by
  rw [← Bool.not_eq_true, ekLt_eq_true_iff]

theorem find?_eq_getElem?_findIdx (p : Row → Bool) (l : List Row) :
    l.find? p = l.get? (l.findIdx p) := by
  induction l with
  | nil => rfl
  | cons a rest ih =>
    by_cases ha : p a
    · simp [List.find?_cons_of_pos _ ha, List.findIdx_cons, ha]
    · simp [List.find?_cons_of_neg _ ha, List.findIdx_cons, ha, ih]

theorem find?_congr_mem (p q : Row → Bool) (l : List Row)
    (h : ∀ x ∈ l, p x = q x) : l.find? p = l.find? q := by
  induction l with
  | nil => rfl
  | cons a rest ih =>
    have ha := h a (List.mem_cons_self _ _)
    by_cases hpa : p a
    · rw [List.find?_cons_of_pos _ hpa, List.find?_cons_of_pos _ (ha ▸ hpa)]
    · rw [List.find?_cons_of_neg _ hpa, List.find?_cons_of_neg _ (by rw [← ha]; exact hpa)]
      exact ih (fun x hx => h x (List.mem_cons_of_mem _ hx))

/-- On a table sorted by engine key, searching from the back for the last
row below `q` finds exactly the row preceding the first row at-or-above
`q`. -/
theorem reverse_find_lt (q : EK) :
    ∀ (rows : List Row), rows.Pairwise (fun a b => ekLtP a.ek b.ek) →
      rows.reverse.find? (fun r => ekLt r.ek q)
        = if 0 < rows.findIdx (fun r => !ekLt r.ek q)
          then rows.get? (rows.findIdx (fun r => !ekLt r.ek q) - 1)
          else none := by
  intro rows
  induction rows with
  | nil => intro _; simp
  | cons a rest ih =>
    intro hs
    rcases List.pairwise_cons.mp hs with ⟨ha, hrest⟩
    by_cases pa : ekLt a.ek q
    · have hidx : (a :: rest).findIdx (fun r => !ekLt r.ek q)
          = rest.findIdx (fun r => !ekLt r.ek q) + 1 := by
        simp [List.findIdx_cons, pa]
      rw [hidx]
      have happ : (a :: rest).reverse.find? (fun r => ekLt r.ek q)
          = (rest.reverse.find? (fun r => ekLt r.ek q)).or
              ([a].find? (fun r => ekLt r.ek q)) := by
        simp [List.reverse_cons, List.find?_append]
      rw [happ, ih hrest]
      by_cases hj : 0 < rest.findIdx (fun r => !ekLt r.ek q)
      · obtain ⟨n, hn⟩ : ∃ n, rest.findIdx (fun r => !ekLt r.ek q) = n + 1 :=
          ⟨rest.findIdx (fun r => !ekLt r.ek q) - 1, by omega⟩
        rw [hn]
        have hlt : n < rest.length := by
          have := @List.findIdx_le_length Row (fun r => !ekLt r.ek q) rest
          omega
        simp only [Nat.zero_lt_succ, if_pos, Nat.add_sub_cancel,
          List.get?_eq_getElem?, List.getElem?_cons_succ]
        rw [List.getElem?_eq_getElem hlt]
        simp
      · rw [if_neg hj]
        simp only [Option.none_or]
        rw [List.find?_singleton, if_pos pa,
          if_pos (by omega : 0 < rest.findIdx (fun r => !ekLt r.ek q) + 1)]
        have h0 : rest.findIdx (fun r => !ekLt r.ek q) = 0 := by omega
        simp [h0]
    · have hidx : (a :: rest).findIdx (fun r => !ekLt r.ek q) = 0 := by
        simp [List.findIdx_cons, pa]
      rw [hidx, if_neg (by omega)]
      rw [List.find?_eq_none]
      intro x hx
      rw [List.mem_reverse, List.mem_cons] at hx
      rcases hx with rfl | hx
      · exact fun h => pa h
      · intro hlt
        have h1 : ekLtP x.ek q := (ekLt_eq_true_iff _ _).mp hlt
        have h2 : ekLtP a.ek x.ek := ha x hx
        have h3 : ¬ ekLtP a.ek q := by
          intro hc
          exact pa ((ekLt_eq_true_iff _ _).mpr hc)
        exact h3 (ekLtP_trans h2 h1)

/-! ## Seek inclusivity (C6) -/

theorem cursorSeek_emit_forward (rows : List Row) (q : EK)
    (hne : ∀ r ∈ rows, r.ek ≠ q) :
    curr (updatePosition (seekWTCursor (mkCursor true rows) q).1)
      = (rows.find? (fun r => !ekLt r.ek q)).map entryOf := by
  rw [find?_eq_getElem?_findIdx]
  by_cases hj : rows.findIdx (fun r => !ekLt r.ek q) < rows.length
  · have hneq : ¬((rows.get ⟨rows.findIdx (fun r => !ekLt r.ek q), hj⟩).ek = q) :=
      hne _ (rows.get_mem _ _)
    have hsn : searchNear rows q
        = if rows.findIdx (fun r => !ekLt r.ek q) = 0
          then some (rows.findIdx (fun r => !ekLt r.ek q), 1)
          else some (rows.findIdx (fun r => !ekLt r.ek q) - 1, -1) := by
      unfold searchNear
      rw [dif_pos hj, if_neg hneq]
    by_cases h0 : rows.findIdx (fun r => !ekLt r.ek q) = 0
    · have hseek : (seekWTCursor (mkCursor true rows) q).1
          = { mkCursor true rows with
              idx := rows.findIdx (fun r => !ekLt r.ek q), cursorAtEof := false } := by
        unfold seekWTCursor
        show (match searchNear rows q with
          | none => ({ mkCursor true rows with cursorAtEof := true }, false)
          | some (i, cmp) =>
            let c1 := { mkCursor true rows with idx := i, cursorAtEof := false }
            if cmp = 0 then (c1, true)
            else if (if (mkCursor true rows).forward then cmp < 0 else cmp > 0) then
              (advanceWTCursor c1, false)
            else (c1, false)).1 = _
        rw [hsn, if_pos h0]
        norm_num [mkCursor]
      rw [hseek]
      have hget : rows.get? (rows.findIdx (fun r => !ekLt r.ek q))
          = some (rows.get ⟨_, hj⟩) := by
        simp [List.get?_eq_getElem?, List.getElem?_eq_getElem hj]
      unfold updatePosition
      simp only [mkCursor, hget]
      simp [atOrPastEndPointAfterSeeking, curr, entryOf, structValOf,
        List.get?_eq_getElem?, List.getElem?_eq_getElem hj]
    · have hseek : (seekWTCursor (mkCursor true rows) q).1
          = advanceWTCursor { mkCursor true rows with
              idx := rows.findIdx (fun r => !ekLt r.ek q) - 1, cursorAtEof := false } := by
        unfold seekWTCursor
        show (match searchNear rows q with
          | none => ({ mkCursor true rows with cursorAtEof := true }, false)
          | some (i, cmp) =>
            let c1 := { mkCursor true rows with idx := i, cursorAtEof := false }
            if cmp = 0 then (c1, true)
            else if (if (mkCursor true rows).forward then cmp < 0 else cmp > 0) then
              (advanceWTCursor c1, false)
            else (c1, false)).1 = _
        rw [hsn, if_neg h0]
        norm_num [mkCursor]
      rw [hseek]
      have hadv : advanceWTCursor { mkCursor true rows with
            idx := rows.findIdx (fun r => !ekLt r.ek q) - 1, cursorAtEof := false }
          = { mkCursor true rows with
              idx := rows.findIdx (fun r => !ekLt r.ek q), cursorAtEof := false } := by
        unfold advanceWTCursor
        have hlt : rows.findIdx (fun r => !ekLt r.ek q) - 1 + 1 < rows.length := by
          omega
        simp only [mkCursor, if_pos hlt]
        simp
        omega
      rw [hadv]
      have hget : rows.get? (rows.findIdx (fun r => !ekLt r.ek q))
          = some (rows.get ⟨_, hj⟩) := by
        simp [List.get?_eq_getElem?, List.getElem?_eq_getElem hj]
      unfold updatePosition
      simp only [mkCursor, hget]
      simp [atOrPastEndPointAfterSeeking, curr, entryOf, structValOf,
        List.get?_eq_getElem?, List.getElem?_eq_getElem hj]
  · have hjl : rows.findIdx (fun r => !ekLt r.ek q) = rows.length := by
      have := @List.findIdx_le_length Row (fun r => !ekLt r.ek q) rows
      omega
    have hnone : rows.get? (rows.findIdx (fun r => !ekLt r.ek q)) = none := by
      rw [hjl]
      simp [List.get?_eq_getElem?]
    rw [hnone]
    by_cases hempty : rows.length = 0
    · have hsn : searchNear rows q = none := by
        unfold searchNear
        rw [dif_neg (by omega)]
        simp [hempty]
      have hseek : (seekWTCursor (mkCursor true rows) q).1
          = { mkCursor true rows with cursorAtEof := true } := by
        unfold seekWTCursor
        show (match searchNear rows q with
          | none => ({ mkCursor true rows with cursorAtEof := true }, false)
          | some (i, cmp) =>
            let c1 := { mkCursor true rows with idx := i, cursorAtEof := false }
            if cmp = 0 then (c1, true)
            else if (if (mkCursor true rows).forward then cmp < 0 else cmp > 0) then
              (advanceWTCursor c1, false)
            else (c1, false)).1 = _
        rw [hsn]
      rw [hseek]
      unfold updatePosition
      simp [curr]
    · have hsn : searchNear rows q = some (rows.length - 1, -1) := by
        unfold searchNear
        rw [dif_neg (by omega)]
        simp [hempty]
      have hseek : (seekWTCursor (mkCursor true rows) q).1
          = advanceWTCursor { mkCursor true rows with
              idx := rows.length - 1, cursorAtEof := false } := by
        unfold seekWTCursor
        show (match searchNear rows q with
          | none => ({ mkCursor true rows with cursorAtEof := true }, false)
          | some (i, cmp) =>
            let c1 := { mkCursor true rows with idx := i, cursorAtEof := false }
            if cmp = 0 then (c1, true)
            else if (if (mkCursor true rows).forward then cmp < 0 else cmp > 0) then
              (advanceWTCursor c1, false)
            else (c1, false)).1 = _
        rw [hsn]
        norm_num [mkCursor]
      rw [hseek]
      have hadv : advanceWTCursor { mkCursor true rows with
            idx := rows.length - 1, cursorAtEof := false }
          = { mkCursor true rows with
              idx := rows.length - 1, cursorAtEof := true } := by
        unfold advanceWTCursor
        have hge : ¬(rows.length - 1 + 1 < rows.length) := by omega
        simp only [mkCursor, if_neg hge]
        simp
      rw [hadv]
      unfold updatePosition
      simp [curr]

theorem cursorSeek_emit_reverse (rows : List Row) (q : EK)
    (hne : ∀ r ∈ rows, r.ek ≠ q)
    (hsorted : rows.Pairwise (fun a b => ekLtP a.ek b.ek)) :
    curr (updatePosition (seekWTCursor (mkCursor false rows) q).1)
      = (rows.reverse.find? (fun r => ekLt r.ek q)).map entryOf := by
  rw [reverse_find_lt q rows hsorted]
  by_cases hj : rows.findIdx (fun r => !ekLt r.ek q) < rows.length
  · have hneq : ¬((rows.get ⟨rows.findIdx (fun r => !ekLt r.ek q), hj⟩).ek = q) :=
      hne _ (rows.get_mem _ _)
    have hsn : searchNear rows q
        = if rows.findIdx (fun r => !ekLt r.ek q) = 0
          then some (rows.findIdx (fun r => !ekLt r.ek q), 1)
          else some (rows.findIdx (fun r => !ekLt r.ek q) - 1, -1) := by
      unfold searchNear
      rw [dif_pos hj, if_neg hneq]
    by_cases h0 : rows.findIdx (fun r => !ekLt r.ek q) = 0
    · have hseek : (seekWTCursor (mkCursor false rows) q).1
          = advanceWTCursor { mkCursor false rows with
              idx := rows.findIdx (fun r => !ekLt r.ek q), cursorAtEof := false } := by
        unfold seekWTCursor
        show (match searchNear rows q with
          | none => ({ mkCursor false rows with cursorAtEof := true }, false)
          | some (i, cmp) =>
            let c1 := { mkCursor false rows with idx := i, cursorAtEof := false }
            if cmp = 0 then (c1, true)
            else if (if (mkCursor false rows).forward then cmp < 0 else cmp > 0) then
              (advanceWTCursor c1, false)
            else (c1, false)).1 = _
        rw [hsn, if_pos h0]
        norm_num [mkCursor]
      rw [hseek]
      have hadv : advanceWTCursor { mkCursor false rows with
            idx := rows.findIdx (fun r => !ekLt r.ek q), cursorAtEof := false }
          = { mkCursor false rows with
              idx := rows.findIdx (fun r => !ekLt r.ek q), cursorAtEof := true } := by
        unfold advanceWTCursor
        simp only [mkCursor, h0]
        simp
      rw [hadv, if_neg (by omega)]
      unfold updatePosition
      simp [curr]
    · have hseek : (seekWTCursor (mkCursor false rows) q).1
          = { mkCursor false rows with
              idx := rows.findIdx (fun r => !ekLt r.ek q) - 1, cursorAtEof := false } := by
        unfold seekWTCursor
        show (match searchNear rows q with
          | none => ({ mkCursor false rows with cursorAtEof := true }, false)
          | some (i, cmp) =>
            let c1 := { mkCursor false rows with idx := i, cursorAtEof := false }
            if cmp = 0 then (c1, true)
            else if (if (mkCursor false rows).forward then cmp < 0 else cmp > 0) then
              (advanceWTCursor c1, false)
            else (c1, false)).1 = _
        rw [hsn, if_neg h0]
        norm_num [mkCursor]
      rw [hseek, if_pos (by omega)]
      have hj1 : rows.findIdx (fun r => !ekLt r.ek q) - 1 < rows.length := by omega
      have hget : rows.get? (rows.findIdx (fun r => !ekLt r.ek q) - 1)
          = some (rows.get ⟨_, hj1⟩) := by
        simp [List.get?_eq_getElem?, List.getElem?_eq_getElem hj1]
      unfold updatePosition
      simp only [mkCursor, hget]
      simp [atOrPastEndPointAfterSeeking, curr, entryOf, structValOf,
        List.get?_eq_getElem?, List.getElem?_eq_getElem hj1]
  · have hjl : rows.findIdx (fun r => !ekLt r.ek q) = rows.length := by
      have := @List.findIdx_le_length Row (fun r => !ekLt r.ek q) rows
      omega
    by_cases hempty : rows.length = 0
    · have hsn : searchNear rows q = none := by
        unfold searchNear
        rw [dif_neg (by omega)]
        simp [hempty]
      have hseek : (seekWTCursor (mkCursor false rows) q).1
          = { mkCursor false rows with cursorAtEof := true } := by
        unfold seekWTCursor
        show (match searchNear rows q with
          | none => ({ mkCursor false rows with cursorAtEof := true }, false)
          | some (i, cmp) =>
            let c1 := { mkCursor false rows with idx := i, cursorAtEof := false }
            if cmp = 0 then (c1, true)
            else if (if (mkCursor false rows).forward then cmp < 0 else cmp > 0) then
              (advanceWTCursor c1, false)
            else (c1, false)).1 = _
        rw [hsn]
      rw [hseek, if_neg (by omega)]
      unfold updatePosition
      simp [curr]
    · have hsn : searchNear rows q = some (rows.length - 1, -1) := by
        unfold searchNear
        rw [dif_neg (by omega)]
        simp [hempty]
      have hseek : (seekWTCursor (mkCursor false rows) q).1
          = { mkCursor false rows with
              idx := rows.length - 1, cursorAtEof := false } := by
        unfold seekWTCursor
        show (match searchNear rows q with
          | none => ({ mkCursor false rows with cursorAtEof := true }, false)
          | some (i, cmp) =>
            let c1 := { mkCursor false rows with idx := i, cursorAtEof := false }
            if cmp = 0 then (c1, true)
            else if (if (mkCursor false rows).forward then cmp < 0 else cmp > 0) then
              (advanceWTCursor c1, false)
            else (c1, false)).1 = _
        rw [hsn]
        norm_num [mkCursor]
      rw [hseek, if_pos (by omega), hjl]
      have hj1 : rows.length - 1 < rows.length := by omega
      have hget : rows.get? (rows.length - 1) = some (rows.get ⟨_, hj1⟩) := by
        simp [List.get?_eq_getElem?, List.getElem?_eq_getElem hj1]
      unfold updatePosition
      simp only [mkCursor, hget]
      simp [atOrPastEndPointAfterSeeking, curr, entryOf, structValOf,
        List.get?_eq_getElem?, List.getElem?_eq_getElem hj1]

theorem legal_ne_exclusive (r : Row) (v d : Nat) (h : legalRow r)
    (hd : d = 0 ∨ d = 2) : r.ek ≠ (3 * v + d, 0) := by
  unfold legalRow at h
  intro he
  rw [he] at h
  simp at h
  omega

theorem not_lt_query_before (r : Row) (K : Nat) (h : legalRow r) :
    (!ekLt r.ek (3 * K + 0, 0)) = decide (K ≤ structValOf r) := by
  unfold legalRow at h
  rw [Bool.eq_iff_iff]
  simp [ekLt, structValOf]
  omega

theorem not_lt_query_after (r : Row) (K : Nat) (h : legalRow r) :
    (!ekLt r.ek (3 * K + 2, 0)) = decide (K < structValOf r) := by
  unfold legalRow at h
  rw [Bool.eq_iff_iff]
  simp [ekLt, structValOf]
  omega

theorem lt_query_after (r : Row) (K : Nat) (h : legalRow r) :
    ekLt r.ek (3 * K + 2, 0) = decide (structValOf r ≤ K) := by
  unfold legalRow at h
  rw [Bool.eq_iff_iff]
  simp [ekLt, structValOf]
  omega

theorem lt_query_before (r : Row) (K : Nat) (h : legalRow r) :
    ekLt r.ek (3 * K + 0, 0) = decide (structValOf r < K) := by
  unfold legalRow at h
  rw [Bool.eq_iff_iff]
  simp [ekLt, structValOf]
  omega

/-- **C6.** For every cursor (both flavors, i.e. any legal sorted row
list) and key `K`: a forward `seek(K, inclusive := true)` positions at
the first entry with structured key `≥ K`, `inclusive := false` at the
first with key `> K`; a reverse cursor positions at the last entry with
key `≤ K` (inclusive) resp. `< K` (exclusive); `none` when no such entry
exists.  The discriminator is
`forward == inclusive ? kExclusiveBefore : kExclusiveAfter` and
`seekWTCursor` steps once when `search_near` lands on the wrong side of
the query for the travel direction. -/
theorem seek_positions_least_or_greatest (rows : List Row) (k : BKey)
    (inclusive fwd : Bool)
    (hsorted : rows.Pairwise (fun a b => ekLtP a.ek b.ek))
    (hlegal : ∀ r ∈ rows, legalRow r) :
    (cursorSeek (mkCursor fwd rows) k inclusive).2
      = if fwd then
          (rows.find? (fun r =>
            if inclusive then decide (k.val ≤ structValOf r)
            else decide (k.val < structValOf r))).map entryOf
        else
          (rows.reverse.find? (fun r =>
            if inclusive then decide (structValOf r ≤ k.val)
            else decide (structValOf r < k.val))).map entryOf := by
  cases fwd with
  | true =>
    cases inclusive with
    | true =>
      have hne : ∀ r ∈ rows, r.ek ≠ encodeQuery k.val Disc.exclusiveBefore := by
        intro r hr
        simpa [encodeQuery, discVal] using
          legal_ne_exclusive r k.val 0 (hlegal r hr) (Or.inl rfl)
      have hmain := cursorSeek_emit_forward rows
        (encodeQuery k.val Disc.exclusiveBefore) hne
      show curr (updatePosition (seekWTCursor (mkCursor true rows)
          (encodeQuery k.val Disc.exclusiveBefore)).1)
        = (rows.find? (fun r => decide (k.val ≤ structValOf r))).map entryOf
      rw [hmain]
      congr 1
      apply find?_congr_mem
      intro r hr
      simpa [encodeQuery, discVal] using not_lt_query_before r k.val (hlegal r hr)
    | false =>
      have hne : ∀ r ∈ rows, r.ek ≠ encodeQuery k.val Disc.exclusiveAfter := by
        intro r hr
        simpa [encodeQuery, discVal] using
          legal_ne_exclusive r k.val 2 (hlegal r hr) (Or.inr rfl)
      have hmain := cursorSeek_emit_forward rows
        (encodeQuery k.val Disc.exclusiveAfter) hne
      show curr (updatePosition (seekWTCursor (mkCursor true rows)
          (encodeQuery k.val Disc.exclusiveAfter)).1)
        = (rows.find? (fun r => decide (k.val < structValOf r))).map entryOf
      rw [hmain]
      congr 1
      apply find?_congr_mem
      intro r hr
      simpa [encodeQuery, discVal] using not_lt_query_after r k.val (hlegal r hr)
  | false =>
    cases inclusive with
    | true =>
      have hne : ∀ r ∈ rows, r.ek ≠ encodeQuery k.val Disc.exclusiveAfter := by
        intro r hr
        simpa [encodeQuery, discVal] using
          legal_ne_exclusive r k.val 2 (hlegal r hr) (Or.inr rfl)
      have hmain := cursorSeek_emit_reverse rows
        (encodeQuery k.val Disc.exclusiveAfter) hne hsorted
      show curr (updatePosition (seekWTCursor (mkCursor false rows)
          (encodeQuery k.val Disc.exclusiveAfter)).1)
        = (rows.reverse.find? (fun r => decide (structValOf r ≤ k.val))).map entryOf
      rw [hmain]
      congr 1
      apply find?_congr_mem
      intro r hr
      rw [List.mem_reverse] at hr
      simpa [encodeQuery, discVal] using lt_query_after r k.val (hlegal r hr)
    | false =>
      have hne : ∀ r ∈ rows, r.ek ≠ encodeQuery k.val Disc.exclusiveBefore := by
        intro r hr
        simpa [encodeQuery, discVal] using
          legal_ne_exclusive r k.val 0 (hlegal r hr) (Or.inl rfl)
      have hmain := cursorSeek_emit_reverse rows
        (encodeQuery k.val Disc.exclusiveBefore) hne hsorted
      show curr (updatePosition (seekWTCursor (mkCursor false rows)
          (encodeQuery k.val Disc.exclusiveBefore)).1)
        = (rows.reverse.find? (fun r => decide (structValOf r < k.val))).map entryOf
      rw [hmain]
      congr 1
      apply find?_congr_mem
      intro r hr
      rw [List.mem_reverse] at hr
      simpa [encodeQuery, discVal] using lt_query_before r k.val (hlegal r hr)

/-- Witness for C6: a forward inclusive seek for key 2 over the standard
table with keys 1, 2, 3 lands on the entry for key 2. -/
theorem seek_positions_least_or_greatest_witness :
    (cursorSeek (mkCursor true (stdRows
        [(stdEK { val := 1, tb := 0, size := 5 } 1, 0),
         (stdEK { val := 2, tb := 0, size := 5 } 1, 0),
         (stdEK { val := 3, tb := 0, size := 5 } 1, 0)]))
      { val := 2, tb := 0, size := 5 } true).2
      = some { keyVal := 2, keyTb := 0, loc := 1 } := by
  have h := seek_positions_least_or_greatest (stdRows
      [(stdEK { val := 1, tb := 0, size := 5 } 1, 0),
       (stdEK { val := 2, tb := 0, size := 5 } 1, 0),
       (stdEK { val := 3, tb := 0, size := 5 } 1, 0)])
    { val := 2, tb := 0, size := 5 } true true (by decide) (by decide)
  rw [h]
  decide

/-! ## End-position bound (C7) -/

theorem query_after_lt (r : Row) (K : Nat) (h : legalRow r) :
    ekLt (3 * K + 2, 0) r.ek = decide (K < structValOf r) := by
  unfold legalRow at h
  rw [Bool.eq_iff_iff]
  simp [ekLt, structValOf]
  omega

theorem query_before_lt (r : Row) (K : Nat) (h : legalRow r) :
    ekLt (3 * K + 0, 0) r.ek = decide (K ≤ structValOf r) := by
  unfold legalRow at h
  rw [Bool.eq_iff_iff]
  simp [ekLt, structValOf]
  omega

theorem advanceWTCursor_fields (c : Cursor) :
    (advanceWTCursor c).rows = c.rows ∧ (advanceWTCursor c).forward = c.forward ∧
      (advanceWTCursor c).endPosition = c.endPosition := by
  unfold advanceWTCursor
  split <;> split <;> simp

theorem seekWTCursor_fields (c : Cursor) (q : EK) :
    (seekWTCursor c q).1.rows = c.rows ∧ (seekWTCursor c q).1.forward = c.forward ∧
      (seekWTCursor c q).1.endPosition = c.endPosition := by
  unfold seekWTCursor
  match searchNear c.rows q with
  | none => simp
  | some (i, cmp) =>
    by_cases h0 : cmp = 0
    · simp [h0]
    · by_cases hstep : if c.forward then cmp < 0 else cmp > 0
      · simp only [h0, if_false, hstep, if_true]
        exact advanceWTCursor_fields _
      · simp [h0, hstep]

theorem updatePosition_emits_within_bound (c : Cursor) (ep : EK) (e : Entry)
    (hep : c.endPosition = some ep)
    (hcur : curr (updatePosition c) = some e) :
    ∃ r, c.rows.get? c.idx = some r ∧ e = entryOf r ∧
      (if c.forward then ekLt ep r.ek = false else ekLt r.ek ep = false) := by
  unfold updatePosition at hcur
  dsimp only at hcur
  split at hcur
  · simp [curr] at hcur
  · split at hcur
    · simp [curr] at hcur
    · rename_i r heq
      split at hcur
      · simp [curr] at hcur
      · rename_i hpast
        simp only [curr, if_neg (by simp : ¬(false = true))] at hcur
        refine ⟨r, by simpa using heq, ?_, ?_⟩
        · simp only [Option.some_inj] at hcur
          rw [← hcur]
          simp [entryOf, structValOf]
        · unfold atOrPastEndPointAfterSeeking at hpast
          simp only [hep] at hpast
          by_cases hf : c.forward
          · simp only [hf, if_true] at hpast ⊢
            simpa using hpast
          · simp only [Bool.not_eq_true] at hf
            simp only [hf] at hpast ⊢
            simpa using hpast

theorem setEndPosition_fields (c : Cursor) (k : BKey) (inclusive : Bool) :
    (setEndPosition c k inclusive).rows = c.rows ∧
      (setEndPosition c k inclusive).forward = c.forward ∧
      (setEndPosition c k inclusive).idx = c.idx ∧
      (setEndPosition c k inclusive).cursorAtEof = c.cursorAtEof ∧
      (setEndPosition c k inclusive).eof = c.eof ∧
      (setEndPosition c k inclusive).lastMoveWasRestore = c.lastMoveWasRestore ∧
      (setEndPosition c k inclusive).endPosition
        = some (encodeQuery k.val (if c.forward = inclusive
            then Disc.exclusiveAfter else Disc.exclusiveBefore)) := by
  simp [setEndPosition]

theorem bound_translate (fwd : Bool) (k : BKey) (inclusive : Bool) (r : Row)
    (hr : legalRow r)
    (hb : (if fwd
      then ekLt (encodeQuery k.val (if fwd = inclusive
        then Disc.exclusiveAfter else Disc.exclusiveBefore)) r.ek
      else ekLt r.ek (encodeQuery k.val (if fwd = inclusive
        then Disc.exclusiveAfter else Disc.exclusiveBefore))) = false) :
    if fwd then (if inclusive then structValOf r ≤ k.val else structValOf r < k.val)
    else (if inclusive then k.val ≤ structValOf r else k.val < structValOf r) := by
  cases fwd with
  | true =>
    cases inclusive with
    | true =>
      simp only [if_pos rfl, if_true] at hb ⊢
      have := query_after_lt r k.val hr
      simp [encodeQuery, discVal] at hb
      rw [show ((3 * k.val + 2 : Nat), (0 : Nat)) = encodeQuery k.val Disc.exclusiveAfter from rfl] at this
      simp [encodeQuery, discVal] at this
      rw [this] at hb
      simpa using hb
    | false =>
      simp only [Bool.true_eq_false, if_false, if_true] at hb ⊢
      have := query_before_lt r k.val hr
      simp [encodeQuery, discVal] at hb
      simp at this
      rw [this] at hb
      simpa using hb
  | false =>
    cases inclusive with
    | true =>
      simp only [Bool.false_eq_true, if_false, if_true] at hb ⊢
      have := lt_query_before r k.val hr
      simp [encodeQuery, discVal] at hb
      simp at this
      rw [this] at hb
      simpa using hb
    | false =>
      simp only [if_pos rfl, if_false] at hb ⊢
      have := lt_query_after r k.val hr
      simp [encodeQuery, discVal] at hb
      simp at this
      rw [this] at hb
      simpa using hb

theorem updatePosition_eof_of_past (c : Cursor) (ep : EK) (r : Row)
    (hep : c.endPosition = some ep) (hr : c.rows.get? c.idx = some r)
    (hpast : (if c.forward then ekLt ep r.ek else ekLt r.ek ep) = true) :
    (updatePosition c).eof = true := by
  unfold updatePosition
  dsimp only
  split
  · rfl
  · split
    · rfl
    · rename_i r2 heq2
      split
      · rfl
      · rename_i hnp
        exfalso
        apply hnp
        have hr2 : r2 = r := by
          rw [hr] at heq2
          exact (Option.some_inj.mp heq2).symm
        unfold atOrPastEndPointAfterSeeking
        dsimp only
        rw [if_neg (by exact Bool.false_ne_true), hep, hr2]
        by_cases hf : c.forward
        · rw [if_pos hf] at hpast
          simpa [hf] using hpast
        · simp only [Bool.not_eq_true] at hf
          rw [hf] at hpast ⊢
          simpa using hpast

/-- **C7.** After `setEndPosition(K, inclusive)`, a scan never emits an
entry past the bound: every entry emitted by `next` or by a `seek`
satisfies key `≤ K` (forward inclusive), `< K` (forward exclusive),
`≥ K` / `> K` for a reverse cursor; the mechanism is that
`updatePosition` reports eof as soon as the landed engine key compares
past the encoded `_end_position`; and because the end position carries an
exclusive discriminator, no legal index key ever equals it. -/
theorem end_bound_respected (c0 : Cursor) (k : BKey) (inclusive : Bool)
    (hlegal : ∀ r ∈ c0.rows, legalRow r) :
    (∀ e : Entry, (cursorNext (setEndPosition c0 k inclusive)).2 = some e →
      if c0.forward then
        (if inclusive then e.keyVal ≤ k.val else e.keyVal < k.val)
      else
        (if inclusive then k.val ≤ e.keyVal else k.val < e.keyVal)) ∧
    (∀ (k2 : BKey) (i2 : Bool) (e : Entry),
      (cursorSeek (setEndPosition c0 k inclusive) k2 i2).2 = some e →
      if c0.forward then
        (if inclusive then e.keyVal ≤ k.val else e.keyVal < k.val)
      else
        (if inclusive then k.val ≤ e.keyVal else k.val < e.keyVal)) ∧
    (∀ r : Row,
      c0.rows.get? c0.idx = some r →
      (if c0.forward
        then ekLt (encodeQuery k.val (if c0.forward = inclusive
          then Disc.exclusiveAfter else Disc.exclusiveBefore)) r.ek
        else ekLt r.ek (encodeQuery k.val (if c0.forward = inclusive
          then Disc.exclusiveAfter else Disc.exclusiveBefore))) = true →
      (updatePosition (setEndPosition c0 k inclusive)).eof = true) ∧
    (∀ r ∈ c0.rows, some r.ek ≠ (setEndPosition c0 k inclusive).endPosition) := by
  obtain ⟨hrows, hfwd, hidx, hae, heof, hlmr, hep⟩ :=
    setEndPosition_fields c0 k inclusive
  refine ⟨?_, ?_, ?_, ?_⟩
  · intro e hnext
    unfold cursorNext at hnext
    split at hnext
    · simp at hnext
    · dsimp only at hnext
      set c1 := if (setEndPosition c0 k inclusive).lastMoveWasRestore
        then setEndPosition c0 k inclusive
        else advanceWTCursor (setEndPosition c0 k inclusive) with hc1
      have hc1rows : c1.rows = c0.rows := by
        rw [hc1]
        split
        · exact hrows
        · rw [(advanceWTCursor_fields _).1, hrows]
      have hc1fwd : c1.forward = c0.forward := by
        rw [hc1]
        split
        · exact hfwd
        · rw [(advanceWTCursor_fields _).2.1, hfwd]
      have hc1ep : c1.endPosition = (setEndPosition c0 k inclusive).endPosition := by
        rw [hc1]
        split
        · rfl
        · exact (advanceWTCursor_fields _).2.2
      obtain ⟨r, hget, hee, hbound⟩ :=
        updatePosition_emits_within_bound c1 _ e (by rw [hc1ep, hep]) hnext
      have hrmem : r ∈ c0.rows := by
        rw [← hc1rows]
        exact List.get?_mem hget
      have htr := bound_translate c0.forward k inclusive r (hlegal r hrmem)
        (by
          rw [hc1fwd] at hbound
          by_cases hf : c0.forward
          · rw [if_pos hf] at hbound ⊢
            simpa using hbound
          · simp only [Bool.not_eq_true] at hf
            rw [hf] at hbound ⊢
            simpa using hbound)
      rw [hee]
      simpa [entryOf] using htr
  · intro k2 i2 e hseek
    unfold cursorSeek at hseek
    dsimp only at hseek
    set c1 := (seekWTCursor (setEndPosition c0 k inclusive)
      (encodeQuery k2.val (if (setEndPosition c0 k inclusive).forward = i2
        then Disc.exclusiveBefore else Disc.exclusiveAfter))).1 with hc1
    have hfields := seekWTCursor_fields (setEndPosition c0 k inclusive)
      (encodeQuery k2.val (if (setEndPosition c0 k inclusive).forward = i2
        then Disc.exclusiveBefore else Disc.exclusiveAfter))
    obtain ⟨r, hget, hee, hbound⟩ :=
      updatePosition_emits_within_bound c1 _ e (by rw [← hc1] at hfields; rw [hfields.2.2, hep]) hseek
    have hrmem : r ∈ c0.rows := by
      rw [← hc1] at hfields
      rw [← hrows, ← hfields.1]
      exact List.get?_mem hget
    have hc1fwd : c1.forward = c0.forward := by
      rw [← hc1] at hfields
      rw [hfields.2.1, hfwd]
    have htr := bound_translate c0.forward k inclusive r (hlegal r hrmem)
      (by
        rw [hc1fwd] at hbound
        by_cases hf : c0.forward
        · rw [if_pos hf] at hbound ⊢
          simpa using hbound
        · simp only [Bool.not_eq_true] at hf
          rw [hf] at hbound ⊢
          simpa using hbound)
    rw [hee]
    simpa [entryOf] using htr
  · intro r hget hpast
    apply updatePosition_eof_of_past (setEndPosition c0 k inclusive)
      (encodeQuery k.val (if c0.forward = inclusive
        then Disc.exclusiveAfter else Disc.exclusiveBefore)) r
      (by rw [hep]) (by rw [hrows, hidx]; exact hget)
    rw [hfwd]
    exact hpast
  · intro r hr
    rw [hep]
    intro hcontra
    have heq : r.ek = encodeQuery k.val (if c0.forward = inclusive
        then Disc.exclusiveAfter else Disc.exclusiveBefore) :=
      Option.some_inj.mp hcontra
    by_cases hd : c0.forward = inclusive
    · rw [if_pos hd] at heq
      exact legal_ne_exclusive r k.val 2 (hlegal r hr) (Or.inr rfl)
        (by simpa [encodeQuery, discVal] using heq)
    · rw [if_neg hd] at heq
      exact legal_ne_exclusive r k.val 0 (hlegal r hr) (Or.inl rfl)
        (by simpa [encodeQuery, discVal] using heq)

/-- Witness for C7: a forward scan bounded inclusively at key 2 emits the
entry for key 2, which satisfies the bound. -/
theorem end_bound_respected_witness :
    (cursorNext (setEndPosition
        ((cursorSeek (mkCursor true (uniqueRows
            [(4, [{ loc := 1, tb := none }]), (7, [{ loc := 2, tb := none }])]))
          { val := 1, tb := 0, size := 3 } true).1)
        { val := 2, tb := 0, size := 3 } true)).2
      = some { keyVal := 2, keyTb := 0, loc := 2 } ∧
      ({ keyVal := 2, keyTb := 0, loc := 2 } : Entry).keyVal ≤ 2 := by
  constructor
  · decide
  · have h := (end_bound_respected
      ((cursorSeek (mkCursor true (uniqueRows
          [(4, [{ loc := 1, tb := none }]), (7, [{ loc := 2, tb := none }])]))
        { val := 1, tb := 0, size := 3 } true).1)
      { val := 2, tb := 0, size := 3 } true (by decide)).1
      { keyVal := 2, keyTb := 0, loc := 2 } (by decide)
    exact h

/-! ## Unique-cursor restore and the duplicate list (C8) -/

/-- **C8 counterexample.** A forward unique cursor positioned at
`(K=1, L=10)` is saved; `insert (K, 20, dups_allowed := true)` appends
`L' = 20 > 10` to the duplicate list.  After restore, `next()` does not
return `(K, 20)` as the claim states: restore compares only the first
stored record id (still `10 = _loc`, so no correction runs) and `next()`
advances the engine cursor past the whole row at `K`, returning the entry
of the next key `(2, 30)`. -/
theorem unique_restore_added_loc_cex :
    (cursorNext (uniqueRestore
        (savePositioned ((cursorSeek (mkCursor true (uniqueRows
            [(4, [{ loc := 10, tb := none }]), (7, [{ loc := 30, tb := none }])]))
          { val := 1, tb := 0, size := 3 } true).1))
        (uniqueRows (uniqueIndexInsert
            [(4, [{ loc := 10, tb := none }]), (7, [{ loc := 30, tb := none }])]
            { val := 1, tb := 0, size := 3 } 20 true).2))).2
      = some { keyVal := 2, keyTb := 0, loc := 30 } ∧
      (some { keyVal := 2, keyTb := 0, loc := 30 } : Option Entry)
        ≠ some { keyVal := 1, keyTb := 0, loc := 20 } ∧
      (10 : Nat) < 20 ∧
      encInc { val := 1, tb := 0, size := 3 } = 4 := by
  refine ⟨?_, ?_, ?_, ?_⟩ <;> decide

set_option maxHeartbeats 1600000 in
/-- **C8 (amended).** `restore` compares only the *first* record id stored
in the row's value with the saved `_loc`.  Consequently (shown here on a
two-row table with keys 1 < 2 and arbitrary record ids): when an insert
merely *adds* `L'` to the duplicate list at the cursor's key, the next
`next()` never returns `(K, L')` — a forward cursor moves past `K` for
`L' > L` (no correction runs) and for `L' < L` (the correction itself
advances), and a reverse cursor with `L' > L` added likewise skips to the
previous key, while a reverse cursor with `L' < L` added reads the
two-record value and hits the fatal multiple-records assertion
(`fassertFailed(28608)`, modelled by `fatalDup`).  The claimed behavior
holds when the value at `K` has been *replaced* by the single record
`L'` on the cursor's travel side: forward with `L' > L` yields
`(K, L')`, reverse with `L' < L` yields `(K, L')`. -/
theorem unique_restore_loc_correction_amended :
    (∀ L Lp M : Nat, L < Lp →
      (cursorNext (uniqueRestore
          (savePositioned ((cursorSeek (mkCursor true (uniqueRows
              [(4, [{ loc := L, tb := none }]), (7, [{ loc := M, tb := none }])]))
            { val := 1, tb := 0, size := 3 } true).1))
          (uniqueRows (uniqueIndexInsert
              [(4, [{ loc := L, tb := none }]), (7, [{ loc := M, tb := none }])]
              { val := 1, tb := 0, size := 3 } Lp true).2))).2
        = some { keyVal := 2, keyTb := 0, loc := M }) ∧
    (∀ L Lp M : Nat, Lp < L →
      (cursorNext (uniqueRestore
          (savePositioned ((cursorSeek (mkCursor true (uniqueRows
              [(4, [{ loc := L, tb := none }]), (7, [{ loc := M, tb := none }])]))
            { val := 1, tb := 0, size := 3 } true).1))
          (uniqueRows (uniqueIndexInsert
              [(4, [{ loc := L, tb := none }]), (7, [{ loc := M, tb := none }])]
              { val := 1, tb := 0, size := 3 } Lp true).2))).2
        = some { keyVal := 2, keyTb := 0, loc := M }) ∧
    (∀ L Lp M : Nat, L < Lp →
      (cursorNext (uniqueRestore
          (savePositioned ((cursorSeek (mkCursor true (uniqueRows
              [(4, [{ loc := L, tb := none }]), (7, [{ loc := M, tb := none }])]))
            { val := 1, tb := 0, size := 3 } true).1))
          (uniqueRows (uniqueIndexInsert
              (uniqueUnindex
                [(4, [{ loc := L, tb := none }]), (7, [{ loc := M, tb := none }])]
                { val := 1, tb := 0, size := 3 } L true)
              { val := 1, tb := 0, size := 3 } Lp true).2))).2
        = some { keyVal := 1, keyTb := 0, loc := Lp }) ∧
    (∀ L Lp M : Nat, M < Lp →
      (cursorNext (uniqueRestore
          (savePositioned ((cursorSeek (mkCursor false (uniqueRows
              [(4, [{ loc := L, tb := none }]), (7, [{ loc := M, tb := none }])]))
            { val := 2, tb := 0, size := 3 } true).1))
          (uniqueRows (uniqueIndexInsert
              [(4, [{ loc := L, tb := none }]), (7, [{ loc := M, tb := none }])]
              { val := 2, tb := 0, size := 3 } Lp true).2))).2
        = some { keyVal := 1, keyTb := 0, loc := L }) ∧
    (∀ L Lp M : Nat, Lp < M →
      (cursorNext (uniqueRestore
          (savePositioned ((cursorSeek (mkCursor false (uniqueRows
              [(4, [{ loc := L, tb := none }]), (7, [{ loc := M, tb := none }])]))
            { val := 2, tb := 0, size := 3 } true).1))
          (uniqueRows (uniqueIndexInsert
              [(4, [{ loc := L, tb := none }]), (7, [{ loc := M, tb := none }])]
              { val := 2, tb := 0, size := 3 } Lp true).2))).1.fatalDup = true) ∧
    (∀ L Lp M : Nat, Lp < M →
      (cursorNext (uniqueRestore
          (savePositioned ((cursorSeek (mkCursor false (uniqueRows
              [(4, [{ loc := L, tb := none }]), (7, [{ loc := M, tb := none }])]))
            { val := 2, tb := 0, size := 3 } true).1))
          (uniqueRows (uniqueIndexInsert
              (uniqueUnindex
                [(4, [{ loc := L, tb := none }]), (7, [{ loc := M, tb := none }])]
                { val := 2, tb := 0, size := 3 } M true)
              { val := 2, tb := 0, size := 3 } Lp true).2))).2
        = some { keyVal := 2, keyTb := 0, loc := Lp }) := by
  refine ⟨?_, ?_, ?_, ?_, ?_, ?_⟩
  · intro L Lp M h1
    have hne : ¬ Lp = L := by omega
    have hnlt : ¬ Lp < L := by omega
    rw [show (uniqueIndexInsert
        [(4, [{ loc := L, tb := none }]), (7, [{ loc := M, tb := none }])]
        { val := 1, tb := 0, size := 3 } Lp true).2
        = [(4, [{ loc := L, tb := some 0 }, { loc := Lp, tb := some 0 }]),
           (7, [{ loc := M, tb := none }])] from by
      simp [uniqueIndexInsert, checkKeySize, TempKeyMaxSize, uniqueInsertRaw,
        wtInsertU, lookupU, encInc, buildNewUVal, hne, hnlt, wtUpdateU, decodeTb]]
    simp [cursorNext, uniqueRestore, restoreBase, savePositioned, seekWTCursor,
      searchNear, advanceWTCursor, updatePosition, atOrPastEndPointAfterSeeking,
      curr, uniqueRows, mkCursor, cursorSeek, encodeQuery, discVal, ekLt, decodeTb,
      List.findIdx_cons, entryOf, structValOf]
  · intro L Lp M h2
    have hne : ¬ Lp = L := by omega
    have hneL : ¬ L = Lp := by omega
    rw [show (uniqueIndexInsert
        [(4, [{ loc := L, tb := none }]), (7, [{ loc := M, tb := none }])]
        { val := 1, tb := 0, size := 3 } Lp true).2
        = [(4, [{ loc := Lp, tb := some 0 }, { loc := L, tb := some 0 }]),
           (7, [{ loc := M, tb := none }])] from by
      simp [uniqueIndexInsert, checkKeySize, TempKeyMaxSize, uniqueInsertRaw,
        wtInsertU, lookupU, encInc, buildNewUVal, hne, h2, wtUpdateU, decodeTb]]
    simp [cursorNext, uniqueRestore, restoreBase, savePositioned, seekWTCursor,
      searchNear, advanceWTCursor, updatePosition, atOrPastEndPointAfterSeeking,
      curr, uniqueRows, mkCursor, cursorSeek, encodeQuery, discVal, ekLt, decodeTb,
      List.findIdx_cons, entryOf, structValOf, hneL, hne, h2]
  · intro L Lp M h1
    have hneP : ¬ Lp = L := by omega
    have hnlt : ¬ Lp < L := by omega
    rw [show (uniqueIndexInsert
        (uniqueUnindex
          [(4, [{ loc := L, tb := none }]), (7, [{ loc := M, tb := none }])]
          { val := 1, tb := 0, size := 3 } L true)
        { val := 1, tb := 0, size := 3 } Lp true).2
        = [(4, [{ loc := Lp, tb := none }]), (7, [{ loc := M, tb := none }])] from by
      simp [uniqueUnindex, unindexWalk, wtRemoveU, lookupU, encInc,
        uniqueIndexInsert, checkKeySize, TempKeyMaxSize, uniqueInsertRaw,
        wtInsertU, mkFreshUVal, insertRowU]]
    simp [cursorNext, uniqueRestore, restoreBase, savePositioned, seekWTCursor,
      searchNear, advanceWTCursor, updatePosition, atOrPastEndPointAfterSeeking,
      curr, uniqueRows, mkCursor, cursorSeek, encodeQuery, discVal, ekLt, decodeTb,
      List.findIdx_cons, entryOf, structValOf, hneP, hnlt]
  · intro L Lp M h
    have hne : ¬ Lp = M := by omega
    have hnlt : ¬ Lp < M := by omega
    rw [show (uniqueIndexInsert
        [(4, [{ loc := L, tb := none }]), (7, [{ loc := M, tb := none }])]
        { val := 2, tb := 0, size := 3 } Lp true).2
        = [(4, [{ loc := L, tb := none }]),
           (7, [{ loc := M, tb := some 0 }, { loc := Lp, tb := some 0 }])] from by
      simp [uniqueIndexInsert, checkKeySize, TempKeyMaxSize, uniqueInsertRaw,
        wtInsertU, lookupU, encInc, buildNewUVal, hne, hnlt, wtUpdateU, decodeTb]]
    simp [cursorNext, uniqueRestore, restoreBase, savePositioned, seekWTCursor,
      searchNear, advanceWTCursor, updatePosition, atOrPastEndPointAfterSeeking,
      curr, uniqueRows, mkCursor, cursorSeek, encodeQuery, discVal, ekLt, decodeTb,
      List.findIdx_cons, entryOf, structValOf]
  · intro L Lp M h
    have hne : ¬ Lp = M := by omega
    have hngt : ¬ Lp > M := by omega
    rw [show (uniqueIndexInsert
        [(4, [{ loc := L, tb := none }]), (7, [{ loc := M, tb := none }])]
        { val := 2, tb := 0, size := 3 } Lp true).2
        = [(4, [{ loc := L, tb := none }]),
           (7, [{ loc := Lp, tb := some 0 }, { loc := M, tb := some 0 }])] from by
      simp [uniqueIndexInsert, checkKeySize, TempKeyMaxSize, uniqueInsertRaw,
        wtInsertU, lookupU, encInc, buildNewUVal, hne, h, wtUpdateU, decodeTb]]
    simp [cursorNext, uniqueRestore, restoreBase, savePositioned, seekWTCursor,
      searchNear, advanceWTCursor, updatePosition, atOrPastEndPointAfterSeeking,
      curr, uniqueRows, mkCursor, cursorSeek, encodeQuery, discVal, ekLt, decodeTb,
      List.findIdx_cons, entryOf, structValOf, hne, hngt]
  · intro L Lp M h
    have hne : ¬ Lp = M := by omega
    have hngt : ¬ Lp > M := by omega
    rw [show (uniqueIndexInsert
        (uniqueUnindex
          [(4, [{ loc := L, tb := none }]), (7, [{ loc := M, tb := none }])]
          { val := 2, tb := 0, size := 3 } M true)
        { val := 2, tb := 0, size := 3 } Lp true).2
        = [(4, [{ loc := L, tb := none }]), (7, [{ loc := Lp, tb := none }])] from by
      simp [uniqueUnindex, unindexWalk, wtRemoveU, lookupU, encInc,
        uniqueIndexInsert, checkKeySize, TempKeyMaxSize, uniqueInsertRaw,
        wtInsertU, mkFreshUVal, insertRowU]]
    simp [cursorNext, uniqueRestore, restoreBase, savePositioned, seekWTCursor,
      searchNear, advanceWTCursor, updatePosition, atOrPastEndPointAfterSeeking,
      curr, uniqueRows, mkCursor, cursorSeek, encodeQuery, discVal, ekLt, decodeTb,
      List.findIdx_cons, entryOf, structValOf, hne, hngt]

/-- Witness for the amended C8: the forward added-greater and the reverse
replaced-smaller scenarios at concrete record ids. -/
theorem unique_restore_loc_correction_amended_witness :
    (cursorNext (uniqueRestore
        (savePositioned ((cursorSeek (mkCursor true (uniqueRows
            [(4, [{ loc := 10, tb := none }]), (7, [{ loc := 30, tb := none }])]))
          { val := 1, tb := 0, size := 3 } true).1))
        (uniqueRows (uniqueIndexInsert
            [(4, [{ loc := 10, tb := none }]), (7, [{ loc := 30, tb := none }])]
            { val := 1, tb := 0, size := 3 } 20 true).2))).2
      = some { keyVal := 2, keyTb := 0, loc := 30 } ∧
    (cursorNext (uniqueRestore
        (savePositioned ((cursorSeek (mkCursor false (uniqueRows
            [(4, [{ loc := 10, tb := none }]), (7, [{ loc := 30, tb := none }])]))
          { val := 2, tb := 0, size := 3 } true).1))
        (uniqueRows (uniqueIndexInsert
            (uniqueUnindex
              [(4, [{ loc := 10, tb := none }]), (7, [{ loc := 30, tb := none }])]
              { val := 2, tb := 0, size := 3 } 30 true)
            { val := 2, tb := 0, size := 3 } 25 true).2))).2
      = some { keyVal := 2, keyTb := 0, loc := 25 } :=
  ⟨unique_restore_loc_correction_amended.1 10 20 30 (by decide),
    unique_restore_loc_correction_amended.2.2.2.2.2 10 25 30 (by decide)⟩
